import Mathlib

namespace Cyaron

/-- An ordered pair of vertices, the key type of `SwitchGraph.__edges`. -/
abbrev VPair := Int × Int

/-- Model of the `Counter[Tuple[int, int]]` backing store: an association
list from pairs to integer counts (Python dict preserves one entry per
key; mutation touches the first occurrence, matching dict semantics). -/
abbrev Counter := List (VPair × Int)

/-- `c[k]` for a `Counter`: the stored count, `0` when the key is absent
(matching `Counter.__missing__`). -/
def Counter.cnt (c : Counter) (k : VPair) : Int :=
  match c.find? (fun e => decide (e.1 = k)) with
  | some e => e.2
  | none => 0

/-- `k in c`: dict key membership. -/
def Counter.hasKey (c : Counter) (k : VPair) : Bool :=
  c.any (fun e => decide (e.1 = k))

/-- Replace the value stored at the first occurrence of key `k`. -/
def Counter.setFirst (c : Counter) (k : VPair) (n : Int) : Counter :=
  match c with
  | [] => []
  | e :: t => if e.1 = k then (k, n) :: t else e :: Counter.setFirst t k n

/-- Remove the first occurrence of key `k` (Python `dict.pop`). -/
def Counter.eraseFirst (c : Counter) (k : VPair) : Counter :=
  match c with
  | [] => []
  | e :: t => if e.1 = k then t else e :: Counter.eraseFirst t k

/-- `self.__edges[(u, v)] += 1`: bump an existing entry, or append a fresh
entry with count 1 (new dict keys go to the end of the iteration order). -/
def Counter.incr (c : Counter) (k : VPair) : Counter :=
  if c.hasKey k then c.setFirst k (c.cnt k + 1) else c ++ [(k, 1)]

/-- `self.__edges[(u, v)] -= 1` followed by
`if self.__edges[(u, v)] == 0: self.__edges.pop((u, v))`
(the body of `SwitchGraph.__remove`). -/
def Counter.decr (c : Counter) (k : VPair) : Counter :=
  if c.hasKey k then
    (if c.cnt k - 1 = 0 then c.eraseFirst k else c.setFirst k (c.cnt k - 1))
  else c ++ [(k, -1)]

/-- Sum of the counts of the entries whose key satisfies `P`.  Degree
functions and edge counts are all instances of this. -/
def Counter.sumBy (c : Counter) (P : VPair → Bool) : Int :=
  ((c.filter (fun e => P e.1)).map (fun e => e.2)).sum

/-- Insert into a sorted list, keeping earlier elements first among
ties: the stable-sort behaviour of Python `sort`/`sorted`. -/
def insertSorted (le : α → α → Bool) (a : α) : List α → List α
  | [] => [a]
  | b :: t => if le a b then a :: b :: t else b :: insertSorted le a t

/-- Stable insertion sort with respect to `le` (`le x y` meaning `x` may
come before `y`).  Used to model Python `sorted(...)` and
`list.sort(reverse=True)`; structurally recursive so that concrete runs
reduce inside the kernel. -/
def sortBy (le : α → α → Bool) (l : List α) : List α :=
  l.foldr (insertSorted le) []

/-- Model of class `SwitchGraph`: the `directed` flag plus the counted
edge multiset `__edges`. -/
structure SwitchGraph where
  directed : Bool
  edges : Counter
deriving DecidableEq, Repr

namespace SwitchGraph

/-- `SwitchGraph.__insert` (one Counter increment). -/
def insertOne (g : SwitchGraph) (u v : Int) : SwitchGraph :=
  { g with edges := g.edges.incr (u, v) }

/-- `SwitchGraph.__remove` (one Counter decrement with purge-at-zero). -/
def removeOne (g : SwitchGraph) (u v : Int) : SwitchGraph :=
  { g with edges := g.edges.decr (u, v) }

/-- `SwitchGraph.insert`: add edge `(u, v)`, mirrored when the graph is
undirected and `u ≠ v`. -/
def insert (g : SwitchGraph) (u v : Int) : SwitchGraph :=
  let g' := g.insertOne u v
  if ¬g.directed ∧ u ≠ v then g'.insertOne v u else g'

/-- `SwitchGraph.remove`: remove edge `(u, v)`, mirrored when the graph is
undirected and `u ≠ v`. -/
def remove (g : SwitchGraph) (u v : Int) : SwitchGraph :=
  let g' := g.removeOne u v
  if ¬g.directed ∧ u ≠ v then g'.removeOne v u else g'

/-- `SwitchGraph.__init__(edges, directed)`: insert every listed pair. -/
def ofEdges (es : List VPair) (directed : Bool) : SwitchGraph :=
  es.foldl (fun g e => g.insert e.1 e.2) { directed := directed, edges := [] }

/-- Ascending lexicographic comparison on vertex pairs, the order used by
Python `sorted` on a list of 2-tuples. -/
def pairLe (a b : VPair) : Bool :=
  decide (a.1 < b.1 ∨ (a.1 = b.1 ∧ a.2 ≤ b.2))

/-- `SwitchGraph.get_edges`: every canonical key repeated by its
multiplicity, sorted ascending.  `itertools.repeat(k, c)` repeats zero
times for nonpositive `c`. -/
def get_edges (g : SwitchGraph) : List VPair :=
  sortBy pairLe
    ((g.edges.filter (fun e => g.directed || decide (e.1.1 ≤ e.1.2))).flatMap
      (fun e => List.replicate e.2.toNat e.1))

/-- `SwitchGraph.edge_count`: note that, unlike `get_edges`, the source
filters on `k[0] <= k[1]` without the `self.directed` disjunct. -/
def edge_count (g : SwitchGraph) : Int :=
  g.edges.sumBy (fun k => decide (k.1 ≤ k.2))

/-- `sorted(pair)` for a 2-tuple, as used by `switch` in undirected mode. -/
def sortPair (p : VPair) : VPair :=
  if p.1 ≤ p.2 then p else (p.2, p.1)

/-- `SwitchGraph.switch`, with the two weighted random draws made
explicit as the parameters `first` and `second`.  Returns the Python
return value together with the state of the graph after the call. -/
def switch (g : SwitchGraph) (first second : VPair)
    (self_loop repeated_edges : Bool) : Bool × SwitchGraph :=
  let p1 := if g.directed then first else sortPair first
  let p2 := if g.directed then second else sortPair second
  let x1 := p1.1; let y1 := p1.2
  let x2 := p2.1; let y2 := p2.2
  if self_loop then
    if x1 = x2 ∨ y1 = y2 then (false, g)
    else if ¬repeated_edges ∧ (g.edges.hasKey (x1, y2) ∨ g.edges.hasKey (x2, y1)) then
      (false, g)
    else
      (true, ((((g.remove x1 y1).insert x1 y2).remove x2 y2).insert x2 y1))
  else
    if x1 = x2 ∨ x1 = y2 ∨ y1 = x2 ∨ y1 = y2 then (false, g)
    else if ¬repeated_edges ∧ (g.edges.hasKey (x1, y2) ∨ g.edges.hasKey (x2, y1)) then
      (false, g)
    else
      (true, ((((g.remove x1 y1).insert x1 y2).remove x2 y2).insert x2 y1))

/-- Out-degree of `v` read off the stored multiset: total multiplicity of
arcs leaving `v`. -/
def outDeg (g : SwitchGraph) (v : Int) : Int :=
  g.edges.sumBy (fun k => decide (k.1 = v))

/-- In-degree of `v` read off the stored multiset: total multiplicity of
arcs entering `v`. -/
def inDeg (g : SwitchGraph) (v : Int) : Int :=
  g.edges.sumBy (fun k => decide (k.2 = v))

/-- Total multiplicity of the self-loop key `(v, v)`. -/
def loopCnt (g : SwitchGraph) (v : Int) : Int :=
  g.edges.sumBy (fun k => decide (k = (v, v)))

/-- Degree of `v` in an undirected `SwitchGraph`: with mirrored storage
each non-loop incident edge contributes one arc leaving `v`, and each
self-loop is stored once but contributes 2 to the degree. -/
def udeg (g : SwitchGraph) (v : Int) : Int :=
  g.outDeg v + g.loopCnt v

/-- The quantity `switch` must preserve: the (out, in) degree pair for a
directed multiset, and the undirected degree (same value twice) for an
undirected one. -/
def degProfile (g : SwitchGraph) (v : Int) : Int × Int :=
  if g.directed then (g.outDeg v, g.inDeg v) else (g.udeg v, g.udeg v)

end SwitchGraph

namespace Counter

/-- Well-formedness, part 1: one stored entry per key (dict semantics). -/
def NodupKeys (c : Counter) : Prop := (c.map (fun e => e.1)).Nodup

/-- Well-formedness, part 2: no entry with multiplicity `≤ 0` persists. -/
def PosEntries (c : Counter) : Prop := ∀ e ∈ c, 0 < e.2

/-- Mirror symmetry of the counts, the undirected-mode invariant. -/
def Symm (c : Counter) : Prop := ∀ a b : Int, a ≠ b → c.cnt (a, b) = c.cnt (b, a)

end Counter

namespace SwitchGraph

/-- The multiset well-formedness invariant of the claim: dict keys are
unique, every stored key has a strictly positive count, and in
undirected mode the mirrored key of every stored non-loop entry carries
the same count. -/
def WF (g : SwitchGraph) : Prop :=
  g.edges.NodupKeys ∧ g.edges.PosEntries ∧
  (g.directed = false → ∀ e ∈ g.edges, e.1.1 ≠ e.1.2 → g.edges.cnt (e.1.2, e.1.1) = e.2)

instance (g : SwitchGraph) : Decidable (WF g) := by
  unfold WF Counter.NodupKeys Counter.PosEntries
  infer_instance

/-- Entry of the working list `degseq` of
`from_directed_degree_sequence`: the source builds `[sout, sin, vn]`
from the input pair `(sin, sout)` of vertex `vn`, so for an input pair
`p` the entry is `(p.2, p.1, vn)`; field `.1` is the remaining
out-supply consumed when the vertex acts as an edge source and field
`.2.1` is the remaining in-demand consumed when it is the sink. -/
abbrev DEntry := Int × Int × Int

/-- Descending lexicographic comparison of working entries, modelling
`degseq.sort(reverse=True)` (entries are `[Int]` triples in the source,
compared lexicographically; the vertex id makes all entries distinct). -/
def dGe (x y : DEntry) : Bool :=
  decide (y.1 < x.1 ∨ (x.1 = y.1 ∧ (y.2.1 < x.2.1 ∨ (x.2.1 = y.2.1 ∧ y.2.2 ≤ x.2.2))))

/-- Python list subscription `l[j]`, which raises `IndexError` when out
of range. -/
def listGet (l : List α) (j : Nat) : Except String α :=
  match l.get? j with
  | some x => Except.ok x
  | none => Except.error "IndexError"

/-- The innermost loop `while in_deg and degseq[j][0]:` of
`from_directed_degree_sequence`: repeatedly consume one unit of
`degseq[j][0]` and of `in_deg` and insert the edge `vfrom → vto`,
stopping after one round when repeated edges are disallowed. -/
def fddsInner2 (repeated_edges : Bool) (vfrom vto : Int) (fuel : Nat) (j : Nat)
    (in_deg : Int) (degseq : List DEntry) (ret : SwitchGraph) :
    Except String (Int × List DEntry × SwitchGraph) :=
  match fuel with
  | 0 => Except.error "fuel"
  | fuel + 1 =>
    if in_deg = 0 then Except.ok (in_deg, degseq, ret)
    else
      match listGet degseq j with
      | Except.error e => Except.error e
      | Except.ok entry =>
        if entry.1 = 0 then Except.ok (in_deg, degseq, ret)
        else
          let in_deg' := in_deg - 1
          let degseq' := degseq.set j (entry.1 - 1, entry.2.1, entry.2.2)
          let ret' := ret.insert vfrom vto
          if repeated_edges then fddsInner2 repeated_edges vfrom vto fuel j in_deg' degseq' ret'
          else Except.ok (in_deg', degseq', ret')

/-- The middle loop `while in_deg:` of `from_directed_degree_sequence`:
read the source vertex at position `j`, skip it (advancing `j`) when it
is the sink and self-loops are disallowed, run the innermost loop, then
advance `j`. -/
def fddsInner1 (self_loop repeated_edges : Bool) (vto : Int) (fuel : Nat) (j : Nat)
    (in_deg : Int) (degseq : List DEntry) (ret : SwitchGraph) :
    Except String (List DEntry × SwitchGraph) :=
  match fuel with
  | 0 => Except.error "fuel"
  | fuel + 1 =>
    if in_deg = 0 then Except.ok (degseq, ret)
    else
      match listGet degseq j with
      | Except.error e => Except.error e
      | Except.ok entry =>
        let step : Except String (Nat × Int) :=
          if vto = entry.2.2 ∧ self_loop = false then
            match listGet degseq (j + 1) with
            | Except.error e => Except.error e
            | Except.ok entry' => Except.ok (j + 1, entry'.2.2)
          else Except.ok (j, entry.2.2)
        match step with
        | Except.error e => Except.error e
        | Except.ok (j', vfrom) =>
          match fddsInner2 repeated_edges vfrom vto fuel j' in_deg degseq ret with
          | Except.error e => Except.error e
          | Except.ok (in_deg', degseq', ret') =>
            fddsInner1 self_loop repeated_edges vto fuel (j' + 1) in_deg' degseq' ret'

/-- The outer loop `while max(s[1] for s in degseq) > 0:` of
`from_directed_degree_sequence`: pick the first entry with positive
remaining in-demand as the sink, zero its demand, distribute it through
the middle loop, re-sort, repeat.  `max` over an empty working list
would itself raise, hence the leading emptiness guard (unreachable from
the public entry point). -/
def fddsOuter (self_loop repeated_edges : Bool) (fuel : Nat)
    (degseq : List DEntry) (ret : SwitchGraph) : Except String SwitchGraph :=
  match fuel with
  | 0 => Except.error "fuel"
  | fuel + 1 =>
    if degseq.isEmpty then Except.error "ValueError: max() arg is an empty sequence"
    else if ¬ degseq.any (fun e => decide (0 < e.2.1)) then Except.ok ret
    else
      let k := degseq.findIdx (fun e => decide (0 < e.2.1))
      match listGet degseq k with
      | Except.error e => Except.error e
      | Except.ok entry =>
        let in_deg := entry.2.1
        let vto := entry.2.2
        let degseq₁ := degseq.set k (entry.1, 0, entry.2.2)
        match fddsInner1 self_loop repeated_edges vto fuel 0 in_deg degseq₁ ret with
        | Except.error e => Except.error e
        | Except.ok (degseq₂, ret₂) =>
          fddsOuter self_loop repeated_edges fuel (sortBy dGe degseq₂) ret₂

/-- The working list built by
`[[sout, sin, vn] for vn, (sin, sout) in enumerate(degree_sequence, n)]`. -/
def mkDegseqFrom (n : Nat) (l : List (Int × Int)) : List DEntry :=
  (l.enumFrom n).map (fun p => (p.2.2, p.2.1, (p.1 : Int)))

/-- `SwitchGraph.from_directed_degree_sequence`.  Notes on fidelity:
the negativity check precedes `x, y = zip(*degree_sequence)`, which
raises a `ValueError` of its own on an empty sequence (so the dead
`len(degree_sequence) == 0` early return below it is never reached);
an `IndexError` escaping the greedy loop is converted to the
non-graphical `ValueError`. -/
def from_directed_degree_sequence (degree_sequence : List (Int × Int))
    (self_loop repeated_edges : Bool) (fuel : Nat) : Except String SwitchGraph :=
  if degree_sequence.any (fun p => decide (p.1 < 0 ∨ p.2 < 0)) then
    Except.error "Degree sequence is not graphical."
  else if degree_sequence.isEmpty then
    Except.error "ValueError: not enough values to unpack (expected 2, got 0)"
  else if (degree_sequence.map Prod.fst).sum ≠ (degree_sequence.map Prod.snd).sum then
    Except.error "Degree sequence is not graphical."
  else
    match fddsOuter self_loop repeated_edges fuel
        (sortBy dGe (mkDegseqFrom 1 degree_sequence))
        { directed := true, edges := [] } with
    | Except.ok g => Except.ok g
    | Except.error e =>
      if e = "IndexError" then Except.error "Degree sequence is not graphical."
      else Except.error e

/-- Sum of `f` over a working list. -/
def sumOver (f : DEntry → Int) (ds : List DEntry) : Int := (ds.map f).sum

/-- Remaining in-demand attributed to vertex `v`. -/
def inRemOf (ds : List DEntry) (v : Int) : Int :=
  sumOver (fun e => if e.2.2 = v then e.2.1 else 0) ds

/-- Remaining out-supply attributed to vertex `v`. -/
def outRemOf (ds : List DEntry) (v : Int) : Int :=
  sumOver (fun e => if e.2.2 = v then e.1 else 0) ds

/-- Total remaining in-demand. -/
def totIn (ds : List DEntry) : Int := sumOver (fun e => e.2.1) ds

/-- Total remaining out-supply. -/
def totOut (ds : List DEntry) : Int := sumOver (fun e => e.1) ds

/-- Both remaining fields of every working entry are nonnegative. -/
def NN (ds : List DEntry) : Prop := ∀ e ∈ ds, 0 ≤ e.1 ∧ 0 ≤ e.2.1

/-- Entry of the working list of `from_undirected_degree_sequence`:
`[remaining_degree, vertex_id]`. -/
abbrev UEntry := Int × Int

/-- Descending lexicographic comparison for the undirected working list. -/
def uGe (x y : UEntry) : Bool :=
  decide (y.1 < x.1 ∨ (x.1 = y.1 ∧ y.2 ≤ x.2))

/-- The self-loop block `while deg > 1:` of
`from_undirected_degree_sequence` (runs only when self-loops are
allowed): consume the degree two units at a time into loops at `x`,
stopping after one loop when repeated edges are disallowed. -/
def fudsSelfLoops (repeated_edges : Bool) (x : Int) (fuel : Nat) (deg : Int)
    (edges : List VPair) : Except String (Int × List VPair) :=
  match fuel with
  | 0 => Except.error "fuel"
  | fuel + 1 =>
    if 1 < deg then
      let deg' := deg - 2
      let edges' := edges ++ [(x, x)]
      if repeated_edges then fudsSelfLoops repeated_edges x fuel deg' edges'
      else Except.ok (deg', edges')
    else Except.ok (deg, edges)

/-- The innermost loop `while deg and degseq[y][0]:` of
`from_undirected_degree_sequence`. -/
def fudsInner2 (repeated_edges : Bool) (x : Int) (fuel : Nat) (y : Nat) (deg : Int)
    (degseq : List UEntry) (edges : List VPair) :
    Except String (Int × List UEntry × List VPair) :=
  match fuel with
  | 0 => Except.error "fuel"
  | fuel + 1 =>
    if deg = 0 then Except.ok (deg, degseq, edges)
    else
      match listGet degseq y with
      | Except.error e => Except.error e
      | Except.ok entry =>
        if entry.1 = 0 then Except.ok (deg, degseq, edges)
        else
          let deg' := deg - 1
          let degseq' := degseq.set y (entry.1 - 1, entry.2)
          let edges' := edges ++ [(x, entry.2)]
          if repeated_edges then fudsInner2 repeated_edges x fuel y deg' degseq' edges'
          else Except.ok (deg', degseq', edges')

/-- The middle loop `y = 1; while deg: ...; y += 1` of
`from_undirected_degree_sequence`. -/
def fudsInner1 (repeated_edges : Bool) (x : Int) (fuel : Nat) (y : Nat) (deg : Int)
    (degseq : List UEntry) (edges : List VPair) :
    Except String (List UEntry × List VPair) :=
  match fuel with
  | 0 => Except.error "fuel"
  | fuel + 1 =>
    if deg = 0 then Except.ok (degseq, edges)
    else
      match fudsInner2 repeated_edges x fuel y deg degseq edges with
      | Except.error e => Except.error e
      | Except.ok (deg', degseq', edges') =>
        fudsInner1 repeated_edges x fuel (y + 1) deg' degseq' edges'

/-- The outer loop `while len(edges) * 2 < sum(degree_sequence):` of
`from_undirected_degree_sequence`. -/
def fudsOuter (self_loop repeated_edges : Bool) (total : Int) (fuel : Nat)
    (degseq : List UEntry) (edges : List VPair) : Except String (List VPair) :=
  match fuel with
  | 0 => Except.error "fuel"
  | fuel + 1 =>
    if (edges.length : Int) * 2 < total then
      match listGet degseq 0 with
      | Except.error e => Except.error e
      | Except.ok entry =>
        let deg := entry.1
        let x := entry.2
        let degseq₁ := degseq.set 0 (0, entry.2)
        match (if self_loop then fudsSelfLoops repeated_edges x fuel deg edges
               else Except.ok (deg, edges)) with
        | Except.error e => Except.error e
        | Except.ok (deg₁, edges₁) =>
          match fudsInner1 repeated_edges x fuel 1 deg₁ degseq₁ edges₁ with
          | Except.error e => Except.error e
          | Except.ok (degseq₂, edges₂) =>
            fudsOuter self_loop repeated_edges total fuel (sortBy uGe degseq₂) edges₂
    else Except.ok edges

/-- `SwitchGraph.from_undirected_degree_sequence`: validate
non-negativity and even sum, run the greedy loop (an escaping
`IndexError` becomes the non-graphical `ValueError`), and build the
undirected `SwitchGraph` from the collected edge list. -/
def from_undirected_degree_sequence (degree_sequence : List Int)
    (self_loop repeated_edges : Bool) (fuel : Nat) : Except String SwitchGraph :=
  if degree_sequence.any (fun x => decide (x < 0)) then
    Except.error "Degree sequence is not graphical."
  else if degree_sequence.sum % 2 ≠ 0 then
    Except.error "Degree sequence is not graphical."
  else if degree_sequence.isEmpty then
    Except.ok (ofEdges [] false)
  else
    match fudsOuter self_loop repeated_edges degree_sequence.sum fuel
        (sortBy uGe ((degree_sequence.enumFrom 1).map (fun p => (p.2, (p.1 : Int)))))
        [] with
    | Except.ok edges => Except.ok (ofEdges edges false)
    | Except.error e =>
      if e = "IndexError" then Except.error "Degree sequence is not graphical."
      else Except.error e

end SwitchGraph

/-- Model of class `Edge`; the field `end_` models the attribute `end`
(a reserved word in Lean). -/
structure Edge where
  start : Int
  end_ : Int
  weight : Int
deriving DecidableEq, Repr

/-- Model of class `Graph`: the direction flag and the adjacency list
`edges` of `point_count + 1` per-vertex edge lists (index 0 unused). -/
structure Graph where
  directed : Bool
  edges : List (List Edge)
deriving DecidableEq, Repr

/-- Python `range(a, b)` over integers. -/
def intRange (a b : Int) : List Int :=
  (List.range (b - a).toNat).map (fun (k : Nat) => a + (k : Int))

/-- Python `int()` truncation of a rational toward zero. -/
def qTrunc (q : ℚ) : Int := Int.tdiv q.num q.den

namespace Graph

/-- `Graph.__init__(point_count, directed)`. -/
def init (point_count : Int) (directed : Bool) : Graph :=
  ⟨directed, List.replicate (point_count + 1).toNat []⟩

/-- `Graph.__add_edge`: append one `Edge` record to `edges[x]`.  Vertex
indices are nonnegative and in range in every reachable call. -/
def addEdgeOne (g : Graph) (x y w : Int) : Graph :=
  ⟨g.directed, g.edges.set x.toNat ((g.edges.getD x.toNat []) ++ [⟨x, y, w⟩])⟩

/-- `Graph.add_edge`: mirrored when the graph is undirected and not a
self-loop. -/
def add_edge (g : Graph) (x y w : Int) : Graph :=
  let g' := g.addEdgeOne x y w
  if ¬g.directed ∧ x ≠ y then g'.addEdgeOne y x w else g'

/-- `Graph.iterate_edges`: walk the adjacency lists in vertex order and
yield the canonical copies (`end >= start` or directed). -/
def iterate_edges (g : Graph) : List Edge :=
  g.edges.flatten.filter (fun e => decide (e.end_ ≥ e.start) || g.directed)

/-- `Graph.edge_count`. -/
def edge_count (g : Graph) : Nat := g.iterate_edges.length

/-- `Graph._calc_max_edge`. -/
def calc_max_edge (point_count : Int) (directed self_loop : Bool) : Int :=
  let m := point_count * (point_count - 1)
  let m := if ¬directed then Int.fdiv m 2 else m
  if self_loop then m + point_count else m

/-- The rejection-sampling loop of `Graph.graph`, with the random vertex
draws passed explicitly (one pair per iteration of the `while` loop) and
`used_edges` as an explicit list; exhausting the supplied draws before
`edge_count` edges are accepted is reported as an error. -/
def graphLoop (edge_count : Int) (directed self_loop repeated_edges : Bool) :
    List (Int × Int) → Int → List VPair → Graph → Except String Graph
  | draws, i, used, g =>
    if i < edge_count then
      match draws with
      | [] => Except.error "out of random draws"
      | (u, v) :: rest =>
        if (¬self_loop = true ∧ u = v) ∨ (¬repeated_edges = true ∧ (u, v) ∈ used) then
          graphLoop edge_count directed self_loop repeated_edges rest i used g
        else
          graphLoop edge_count directed self_loop repeated_edges rest (i + 1)
            (if ¬repeated_edges = true then
              (if ¬directed = true then used ++ [(u, v), (v, u)] else used ++ [(u, v)])
             else used)
            (g.add_edge u v 1)
    else Except.ok g

/-- `Graph.graph` with the default weight generator (`weight_limit =
(1,1)`, so every weight is 1): validate the no-repeats capacity first,
then rejection-sample. -/
def graph (point_count edge_count : Int) (directed self_loop repeated_edges : Bool)
    (draws : List (Int × Int)) : Except String Graph :=
  if ¬repeated_edges = true ∧
      edge_count > calc_max_edge point_count directed self_loop then
    Except.error ("the number of edges of this kind of graph which has " ++
      toString point_count ++ " vertexes must be less than or equal to " ++
      toString (calc_max_edge point_count directed self_loop) ++ ".")
  else
    graphLoop edge_count directed self_loop repeated_edges draws 0 []
      (init point_count directed)

/-- `Graph.hack_spfa` with the default weight generator (all weights 1)
and the `extra_edge` random draws passed explicitly (the claim uses
`extra_edge = 0`, i.e. the empty list).  `point_to_skip` is the exact
value `point_count / 2 + 1` (a half-integer, from Python float
division) when `point_count` is odd, else `point_count + 3`; it is
stored here as twice its value so that `x >= point_to_skip` is exact
integer arithmetic.  `half = int(point_count / 2)` truncates toward
zero like Python `int()`. -/
def hack_spfa (point_count : Int) (extra : List (Int × Int)) : Graph :=
  let double_point_to_skip : Int :=
    if point_count % 2 = 1 then point_count + 2 else 2 * (point_count + 3)
  let graph := init point_count false
  let half : Int := Int.tdiv point_count 2
  let adj : Int → Int := fun x => x + (if double_point_to_skip ≤ 2 * x then 1 else 0)
  let g1 := (intRange 1 half).foldl (fun g i =>
      (g.add_edge (adj i) (adj (i + 1)) 1).add_edge
        (adj (i + half)) (adj (i + half + 1)) 1) graph
  let g2 := (intRange 1 (half + 1)).foldl (fun g i =>
      g.add_edge (adj i) (adj (i + half)) 1) g1
  extra.foldl (fun g p => g.add_edge p.1 p.2 1) g2

/-- `Graph.tree` with the default weight generator (all weights 1) and
the father choices passed as the function `fathers` (the default
`father_gen` draws `random.randrange(1, cur)`).  `int(...)` truncation
is `qTrunc`. -/
def tree (point_count : Int) (chain flower : ℚ) (fathers : Int → Int) :
    Except String Graph :=
  if ¬(0 ≤ chain ∧ chain ≤ 1) ∨ ¬(0 ≤ flower ∧ flower ≤ 1) then
    Except.error "chain and flower must be between 0 and 1"
  else if 1 < chain + flower then
    Except.error "chain plus flower must be smaller than 1"
  else
    let graph := init point_count false
    let chain_count₀ : Int := qTrunc (((point_count : ℚ) - 1) * chain)
    let flower_count₀ : Int := qTrunc (((point_count : ℚ) - 1) * flower)
    let chain_count := if point_count - 1 < chain_count₀ then point_count - 1
      else chain_count₀
    let flower_count := if point_count - 1 < chain_count + flower_count₀ then
        point_count - 1 - chain_count
      else flower_count₀
    let random_count := point_count - 1 - chain_count - flower_count
    let g1 := (intRange 2 (chain_count + 2)).foldl
        (fun g i => g.add_edge (i - 1) i 1) graph
    let g2 := (intRange (chain_count + 2) (chain_count + flower_count + 2)).foldl
        (fun g i => g.add_edge 1 i 1) g1
    let g3 := (intRange (point_count - random_count + 1) (point_count + 1)).foldl
        (fun g i => g.add_edge (fathers i) i 1) g2
    Except.ok g3

/-- `Graph.forest`, with `random.sample(tree_edges, len(tree_edges) -
tree_count + 1)` modelled by the list `sampleIdx` of sampled positions
into `tree_edges` (`random.sample` draws distinct positions, reflected
as hypotheses where this function is reasoned about). -/
def forest (point_count tree_count : Int) (fathers : Int → Int)
    (sampleIdx : List Nat) : Except String Graph :=
  if tree_count ≤ 0 ∨ point_count < tree_count then
    Except.error "tree_count must be between 1 and point_count"
  else
    match tree point_count 0 0 fathers with
    | Except.error e => Except.error e
    | Except.ok t =>
      let tree_edges := t.iterate_edges
      let need_add := sampleIdx.filterMap (fun j => tree_edges.get? j)
      let result := init point_count t.directed
      Except.ok (need_add.foldl (fun g e => g.add_edge e.start e.end_ e.weight) result)

end Graph

/-- One union step of the union-find-style label fold: everything
labelled like the second endpoint of the edge is relabelled to the
label of the first endpoint. -/
def mergeStep (ls : List Nat) (e : Nat × Nat) : List Nat :=
  ls.map (fun l => if l = ls.getD e.2 0 then ls.getD e.1 0 else l)

/-- Labels of the vertices `0..n` after merging along every edge. -/
def compLabels (n : Nat) (es : List (Nat × Nat)) : List Nat :=
  es.foldl mergeStep (List.range (n + 1))

/-- Number of connected components among the vertices `1..n` induced by
the edge list `es` (index 0 is the unused slot): the number of distinct
labels left by union-find-style merging over the edge list — the
"union-find over the edge list" counting method of the specification. -/
def componentCount (n : Nat) (es : List (Nat × Nat)) : Nat :=
  ((compLabels n es).drop 1).toFinset.card

namespace Graph

/-- The number of connected components of a `Graph` (the spec-side
notion the `forest` sentence speaks about): vertices are `1 ..
point_count` (`edges.length - 1` slots), edges the canonical
`iterate_edges` list, counted by the union-find-style label fold. -/
def component_count (g : Graph) : Nat :=
  componentCount (g.edges.length - 1)
    (g.iterate_edges.map (fun e => (e.start.toNat, e.end_.toNat)))

end Graph

/-- `RangeQueryRandomMode` of `cyaron/query.py`: `less` disallows
`l = r`, `allow_equal` allows it. -/
inductive RangeQueryRandomMode where
  | less
  | allow_equal
deriving DecidableEq, Repr

namespace RangeQuery

/-- One entry of `position_range` is an int or a list of ints. -/
abbrev PosEntry := Int ⊕ List Int

/-- `cur_range` computed from one entry of `position_range`: an int `x`
yields `(1, x)`, a one-element list `[a]` yields `(1, a)`, any longer
list yields its first two elements; the empty list makes the subsequent
`cur_range[0]` subscript raise `IndexError` (`none` here). -/
def normRange : PosEntry → Option (Int × Int)
  | Sum.inl x => some (1, x)
  | Sum.inr l =>
    if l.length = 1 then some (1, l.getD 0 0)
    else
      match l with
      | a :: b :: _ => some (a, b)
      | _ => none

/-- The `for i in range(dimension)` loop of
`RangeQuery.get_one_query`, walking the remaining entries with `i` the
absolute dimension index (used to address the random draws) and
`query_l`, `query_r` the accumulated output lists.  `draws i` is the
pair produced for dimension `i` (`random.sample(range(lo, hi+1), 2)`
in `less` mode, two `random.randint(lo, hi)` calls otherwise). -/
def getOneQueryGo (mode : RangeQueryRandomMode) (draws : Nat → Int × Int) :
    List PosEntry → Nat → List Int → List Int →
    Except String (List Int × List Int)
  | [], _, query_l, query_r => Except.ok (query_l, query_r)
  | pr :: rest, i, query_l, query_r =>
    match normRange pr with
    | none => Except.error "IndexError"
    | some cur_range =>
      if cur_range.1 > cur_range.2 then
        Except.error "upper-bound should be larger than lower-bound"
      else if mode = RangeQueryRandomMode.less ∧ cur_range.1 = cur_range.2 then
        Except.error "mode is set to less but upper-bound is equal to lower-bound"
      else
        let l := (draws i).1
        let r := (draws i).2
        let lr := if l > r then (r, l) else (l, r)
        getOneQueryGo mode draws rest (i + 1)
          (query_l ++ [lr.1]) (query_r ++ [lr.2])

/-- `RangeQuery.get_one_query`. -/
def get_one_query (position_range : List PosEntry) (mode : RangeQueryRandomMode)
    (draws : Nat → Int × Int) : Except String (List Int × List Int) :=
  getOneQueryGo mode draws position_range 0 [] []

/-- The returned `query_l` (first component), empty on error. -/
def qlOf (r : Except String (List Int × List Int)) : List Int :=
  (r.toOption.getD ([], [])).1

/-- The returned `query_r` (second component), empty on error. -/
def qrOf (r : Except String (List Int × List Int)) : List Int :=
  (r.toOption.getD ([], [])).2

end RangeQuery

end Cyaron

namespace Cyaron

theorem insertSorted_perm (le : α → α → Bool) (a : α) (l : List α) :
    List.Perm (insertSorted le a l) (a :: l) := by
  induction l with
  | nil => simp [insertSorted]
  | cons b t ih =>
    simp only [insertSorted]
    split
    · exact List.Perm.refl _
    · exact ((ih.cons b).trans (List.Perm.swap a b t))

theorem sortBy_perm (le : α → α → Bool) (l : List α) : List.Perm (sortBy le l) l := by
  induction l with
  | nil => exact List.Perm.refl _
  | cons a t ih => exact (insertSorted_perm le a (sortBy le t)).trans (ih.cons a)

namespace Counter

theorem sumBy_nil (P : VPair → Bool) : Counter.sumBy [] P = 0 := rfl

theorem sumBy_cons (e : VPair × Int) (t : Counter) (P : VPair → Bool) :
    Counter.sumBy (e :: t) P = (if P e.1 then e.2 else 0) + Counter.sumBy t P := by
  by_cases h : P e.1
  · simp [Counter.sumBy, List.filter_cons, h]
  · simp [Counter.sumBy, List.filter_cons, h]

theorem sumBy_append_single (c : Counter) (P : VPair → Bool) (k : VPair) (v : Int) :
    Counter.sumBy (c ++ [(k, v)]) P = Counter.sumBy c P + (if P k then v else 0) := by
  induction c with
  | nil => simp [sumBy_cons, sumBy_nil]
  | cons e t ih => simp only [List.cons_append, sumBy_cons, ih]; ring

theorem cnt_cons_pos (e : VPair × Int) (t : Counter) (k : VPair) (he : e.1 = k) :
    Counter.cnt (e :: t) k = e.2 := by
  unfold Counter.cnt
  rw [List.find?_cons_of_pos _ (by simp [he])]

theorem cnt_cons_neg (e : VPair × Int) (t : Counter) (k : VPair) (he : ¬e.1 = k) :
    Counter.cnt (e :: t) k = Counter.cnt t k := by
  unfold Counter.cnt
  rw [List.find?_cons_of_neg _ (by simp [he])]

theorem sumBy_setFirst (c : Counter) (k : VPair) (n : Int) (P : VPair → Bool)
    (h : c.hasKey k = true) :
    Counter.sumBy (c.setFirst k n) P =
      Counter.sumBy c P - (if P k then c.cnt k else 0) + (if P k then n else 0) := by
  induction c with
  | nil => simp [Counter.hasKey] at h
  | cons e t ih =>
    by_cases he : e.1 = k
    · rw [cnt_cons_pos e t k he]
      simp only [Counter.setFirst, if_pos he, sumBy_cons]
      rw [he]
      ring
    · have ht : Counter.hasKey t k = true := by
        have h' := h
        simp only [Counter.hasKey, List.any_cons, Bool.or_eq_true, decide_eq_true_eq] at h'
        rcases h' with h1 | h1
        · exact absurd h1 he
        · exact h1
      have hcnt : Counter.cnt (e :: t) k = Counter.cnt t k := cnt_cons_neg e t k he
      simp only [Counter.setFirst, if_neg he, sumBy_cons, ih ht, hcnt]
      ring

theorem sumBy_eraseFirst (c : Counter) (k : VPair) (P : VPair → Bool)
    (h : c.hasKey k = true) :
    Counter.sumBy (c.eraseFirst k) P =
      Counter.sumBy c P - (if P k then c.cnt k else 0) := by
  induction c with
  | nil => simp [Counter.hasKey] at h
  | cons e t ih =>
    by_cases he : e.1 = k
    · rw [cnt_cons_pos e t k he]
      simp only [Counter.eraseFirst, if_pos he, sumBy_cons]
      rw [he]
      ring
    · have ht : Counter.hasKey t k = true := by
        have h' := h
        simp only [Counter.hasKey, List.any_cons, Bool.or_eq_true, decide_eq_true_eq] at h'
        rcases h' with h1 | h1
        · exact absurd h1 he
        · exact h1
      have hcnt : Counter.cnt (e :: t) k = Counter.cnt t k := cnt_cons_neg e t k he
      simp only [Counter.eraseFirst, if_neg he, sumBy_cons, ih ht, hcnt]
      ring

theorem sumBy_incr (c : Counter) (k : VPair) (P : VPair → Bool) :
    Counter.sumBy (c.incr k) P = Counter.sumBy c P + (if P k then 1 else 0) := by
  unfold Counter.incr
  by_cases h : c.hasKey k = true
  · rw [if_pos h, sumBy_setFirst c k _ P h]
    split <;> ring
  · rw [if_neg h, sumBy_append_single]

theorem sumBy_decr (c : Counter) (k : VPair) (P : VPair → Bool) :
    Counter.sumBy (c.decr k) P = Counter.sumBy c P - (if P k then 1 else 0) := by
  unfold Counter.decr
  by_cases h : c.hasKey k = true
  · rw [if_pos h]
    by_cases hz : c.cnt k - 1 = 0
    · rw [if_pos hz, sumBy_eraseFirst c k P h]
      have h1 : c.cnt k = 1 := by omega
      rw [h1]
    · rw [if_neg hz, sumBy_setFirst c k _ P h]
      split <;> ring
  · rw [if_neg h, sumBy_append_single c P k (-1)]
    split <;> ring

end Counter

namespace SwitchGraph

@[simp] theorem directed_insertOne (g : SwitchGraph) (u v : Int) :
    (g.insertOne u v).directed = g.directed := rfl

@[simp] theorem directed_removeOne (g : SwitchGraph) (u v : Int) :
    (g.removeOne u v).directed = g.directed := rfl

@[simp] theorem directed_insert (g : SwitchGraph) (u v : Int) :
    (g.insert u v).directed = g.directed := by
  unfold insert
  split <;> rfl

@[simp] theorem directed_remove (g : SwitchGraph) (u v : Int) :
    (g.remove u v).directed = g.directed := by
  unfold remove
  split <;> rfl

theorem insert_edges_directed (g : SwitchGraph) (u v : Int) (h : g.directed = true) :
    (g.insert u v).edges = g.edges.incr (u, v) := by
  unfold insert
  rw [if_neg (by simp [h])]
  rfl

theorem remove_edges_directed (g : SwitchGraph) (u v : Int) (h : g.directed = true) :
    (g.remove u v).edges = g.edges.decr (u, v) := by
  unfold remove
  rw [if_neg (by simp [h])]
  rfl

theorem outDeg_insert_directed (g : SwitchGraph) (u v w : Int) (h : g.directed = true) :
    (g.insert u v).outDeg w = g.outDeg w + (if u = w then 1 else 0) := by
  unfold outDeg
  rw [insert_edges_directed g u v h, Counter.sumBy_incr]
  simp

theorem inDeg_insert_directed (g : SwitchGraph) (u v w : Int) (h : g.directed = true) :
    (g.insert u v).inDeg w = g.inDeg w + (if v = w then 1 else 0) := by
  unfold inDeg
  rw [insert_edges_directed g u v h, Counter.sumBy_incr]
  simp

theorem outDeg_remove_directed (g : SwitchGraph) (u v w : Int) (h : g.directed = true) :
    (g.remove u v).outDeg w = g.outDeg w - (if u = w then 1 else 0) := by
  unfold outDeg
  rw [remove_edges_directed g u v h, Counter.sumBy_decr]
  simp

theorem inDeg_remove_directed (g : SwitchGraph) (u v w : Int) (h : g.directed = true) :
    (g.remove u v).inDeg w = g.inDeg w - (if v = w then 1 else 0) := by
  unfold inDeg
  rw [remove_edges_directed g u v h, Counter.sumBy_decr]
  simp

theorem udeg_insert_undirected (g : SwitchGraph) (u v w : Int) (h : g.directed = false) :
    (g.insert u v).udeg w = g.udeg w + (if u = w then 1 else 0) + (if v = w then 1 else 0) := by
  unfold udeg outDeg loopCnt insert insertOne
  by_cases huv : u = v
  · rw [if_neg (by simp [huv])]
    simp only [Counter.sumBy_incr]
    subst huv
    by_cases hw : u = w
    · subst hw
      simp
      ring
    · simp [hw, Prod.ext_iff]
  · rw [if_pos (by simp [h, huv])]
    simp only [Counter.sumBy_incr, decide_eq_true_eq]
    have hne1 : ((u, v) : VPair) ≠ (w, w) := by
      intro heq
      rw [Prod.mk.injEq] at heq
      exact huv (heq.1.trans heq.2.symm)
    have hne2 : ((v, u) : VPair) ≠ (w, w) := by
      intro heq
      rw [Prod.mk.injEq] at heq
      exact huv (heq.2.trans heq.1.symm)
    rw [if_neg hne1, if_neg hne2]
    split_ifs <;> ring

theorem udeg_remove_undirected (g : SwitchGraph) (u v w : Int) (h : g.directed = false) :
    (g.remove u v).udeg w = g.udeg w - (if u = w then 1 else 0) - (if v = w then 1 else 0) := by
  unfold udeg outDeg loopCnt remove removeOne
  by_cases huv : u = v
  · rw [if_neg (by simp [huv])]
    simp only [Counter.sumBy_decr]
    subst huv
    by_cases hw : u = w
    · subst hw
      simp
      ring
    · simp [hw, Prod.ext_iff]
  · rw [if_pos (by simp [h, huv])]
    simp only [Counter.sumBy_decr, decide_eq_true_eq]
    have hne1 : ((u, v) : VPair) ≠ (w, w) := by
      intro heq
      rw [Prod.mk.injEq] at heq
      exact huv (heq.1.trans heq.2.symm)
    have hne2 : ((v, u) : VPair) ≠ (w, w) := by
      intro heq
      rw [Prod.mk.injEq] at heq
      exact huv (heq.2.trans heq.1.symm)
    rw [if_neg hne1, if_neg hne2]
    split_ifs <;> ring

/-- The degree profile of every vertex is unchanged by the accepted-swap
edge rewiring `remove(x1,y1); insert(x1,y2); remove(x2,y2); insert(x2,y1)`. -/
theorem degProfile_swap (g : SwitchGraph) (x1 y1 x2 y2 v : Int) :
    ((((g.remove x1 y1).insert x1 y2).remove x2 y2).insert x2 y1).degProfile v =
      g.degProfile v := by
  have hdir : ∀ b, ((((g.remove x1 y1).insert x1 y2).remove x2 y2).insert x2 y1).directed = b ↔
      g.directed = b := by simp
  unfold degProfile
  by_cases h : g.directed = true
  · rw [if_pos ((hdir true).mpr h), if_pos h]
    have h1 : (g.remove x1 y1).directed = true := by simp [h]
    have h2 : ((g.remove x1 y1).insert x1 y2).directed = true := by simp [h]
    have h3 : (((g.remove x1 y1).insert x1 y2).remove x2 y2).directed = true := by simp [h]
    rw [Prod.mk.injEq]
    constructor
    · rw [outDeg_insert_directed _ _ _ _ h3, outDeg_remove_directed _ _ _ _ h2,
        outDeg_insert_directed _ _ _ _ h1, outDeg_remove_directed _ _ _ _ h]
      ring
    · rw [inDeg_insert_directed _ _ _ _ h3, inDeg_remove_directed _ _ _ _ h2,
        inDeg_insert_directed _ _ _ _ h1, inDeg_remove_directed _ _ _ _ h]
      ring
  · have h' : g.directed = false := by
      cases hb : g.directed
      · rfl
      · exact absurd hb h
    rw [if_neg (by rw [hdir true]; exact h), if_neg h]
    have h1 : (g.remove x1 y1).directed = false := by simp [h']
    have h2 : ((g.remove x1 y1).insert x1 y2).directed = false := by simp [h']
    have h3 : (((g.remove x1 y1).insert x1 y2).remove x2 y2).directed = false := by simp [h']
    rw [Prod.mk.injEq]
    constructor <;>
    · rw [udeg_insert_undirected _ _ _ _ h3, udeg_remove_undirected _ _ _ _ h2,
        udeg_insert_undirected _ _ _ _ h1, udeg_remove_undirected _ _ _ _ h']
      ring

end SwitchGraph

/-- C1: every call to `switch` — accepted or rejected, for every setting
of `self_loop` and `repeated_edges`, for every pair of random draws, and
for a directed or an undirected multiset — leaves the degree profile
(out/in-degree pair when directed, undirected degree otherwise) of every
vertex unchanged; hence all graphs obtained from a degree-sequence
realization by `0..N` switch calls keep the realized degrees.  An
accepted switch is exactly the rewiring `remove(x1,y1); insert(x1,y2);
remove(x2,y2); insert(x2,y1)`, which `degProfile_swap` shows to be
degree-preserving. -/
theorem C1_switch_preserves_degrees (g : Cyaron.SwitchGraph)
    (first second : Cyaron.VPair) (self_loop repeated_edges : Bool) (v : Int) :
    ((g.switch first second self_loop repeated_edges).2).degProfile v = g.degProfile v := by
  unfold Cyaron.SwitchGraph.switch
  dsimp only
  split_ifs <;> first
    | rfl
    | exact Cyaron.SwitchGraph.degProfile_swap g _ _ _ _ v

/-- C2: whenever `switch` returns `False`, the multiset is completely
unchanged — the state after the call is the state before it, and in
particular `get_edges` returns an identical sequence. -/
theorem C2_switch_false_no_mutation (g : Cyaron.SwitchGraph)
    (first second : Cyaron.VPair) (self_loop repeated_edges : Bool)
    (h : (g.switch first second self_loop repeated_edges).1 = false) :
    (g.switch first second self_loop repeated_edges).2 = g ∧
      ((g.switch first second self_loop repeated_edges).2).get_edges = g.get_edges := by
  unfold Cyaron.SwitchGraph.switch at h ⊢
  dsimp only at h ⊢
  split_ifs at h ⊢ <;> exact ⟨rfl, rfl⟩

/-- C2 witness: a directed graph with edges `(1,2)` and `(1,3)`; the draw
`((1,2), (1,3))` shares endpoint `1`, so the switch is rejected and the
state is untouched. -/
theorem C2_witness :
    ((Cyaron.SwitchGraph.ofEdges [((1:Int),(2:Int)), (1,3)] true).switch
        (1, 2) (1, 3) false false).2 =
      Cyaron.SwitchGraph.ofEdges [((1:Int),(2:Int)), (1,3)] true ∧
    (((Cyaron.SwitchGraph.ofEdges [((1:Int),(2:Int)), (1,3)] true).switch
        (1, 2) (1, 3) false false).2).get_edges =
      (Cyaron.SwitchGraph.ofEdges [((1:Int),(2:Int)), (1,3)] true).get_edges :=
  C2_switch_false_no_mutation _ _ _ _ _ (by decide)

namespace Counter

theorem cnt_eq_zero_of_not_hasKey (c : Counter) (k : VPair) (h : c.hasKey k = false) :
    c.cnt k = 0 := by
  unfold Counter.cnt
  cases hf : c.find? (fun e => decide (e.1 = k)) with
  | none => rfl
  | some e =>
    have he := List.find?_some hf
    have hm := List.mem_of_find?_eq_some hf
    simp only [decide_eq_true_eq] at he
    have : c.hasKey k = true := by
      unfold Counter.hasKey
      rw [List.any_eq_true]
      exact ⟨e, hm, by simp [he]⟩
    rw [this] at h
    cases h

theorem hasKey_of_cnt_pos (c : Counter) (k : VPair) (h : 0 < c.cnt k) :
    c.hasKey k = true := by
  cases hk : c.hasKey k
  · rw [cnt_eq_zero_of_not_hasKey c k hk] at h
    omega
  · rfl

theorem find?_eq_some_of_hasKey (c : Counter) (k : VPair) (h : c.hasKey k = true) :
    ∃ e, c.find? (fun e => decide (e.1 = k)) = some e ∧ e ∈ c ∧ e.1 = k ∧ c.cnt k = e.2 := by
  unfold Counter.hasKey at h
  rw [List.any_eq_true] at h
  obtain ⟨x, hx, hxk⟩ := h
  have : ∃ e, c.find? (fun e => decide (e.1 = k)) = some e := by
    cases hf : c.find? (fun e => decide (e.1 = k)) with
    | some e => exact ⟨e, rfl⟩
    | none =>
      have := List.find?_eq_none.mp hf x hx
      simp [hxk] at this
  obtain ⟨e, hf⟩ := this
  refine ⟨e, hf, List.mem_of_find?_eq_some hf, ?_, ?_⟩
  · have := List.find?_some hf
    simpa using this
  · unfold Counter.cnt
    rw [hf]

theorem cnt_pos_of_mem (c : Counter) (e : VPair × Int)
    (hpos : c.PosEntries) (hm : e ∈ c) : 0 < c.cnt e.1 := by
  have hk : c.hasKey e.1 = true := by
    unfold Counter.hasKey
    rw [List.any_eq_true]
    exact ⟨e, hm, by simp⟩
  obtain ⟨f, _, hfm, _, hcnt⟩ := find?_eq_some_of_hasKey c e.1 hk
  rw [hcnt]
  exact hpos f hfm

theorem cnt_of_mem_nodup (c : Counter) (e : VPair × Int)
    (hnd : c.NodupKeys) (hm : e ∈ c) : c.cnt e.1 = e.2 := by
  induction c with
  | nil => cases hm
  | cons f t ih =>
    rcases List.mem_cons.mp hm with rfl | hmt
    · exact cnt_cons_pos e t e.1 rfl
    · have hne : ¬f.1 = e.1 := by
        unfold NodupKeys at hnd
        simp only [List.map_cons, List.nodup_cons] at hnd
        intro hfe
        exact hnd.1 (hfe ▸ List.mem_map_of_mem (fun x => x.1) hmt)
      rw [cnt_cons_neg f t e.1 hne]
      exact ih (by
        unfold NodupKeys at hnd ⊢
        simp only [List.map_cons, List.nodup_cons] at hnd
        exact hnd.2) hmt

/-- In a well-formed counter the stored entry-wise mirror condition is
equivalent to global count symmetry. -/
theorem symm_iff_entrywise (c : Counter) (hnd : c.NodupKeys) (hpos : c.PosEntries) :
    c.Symm ↔ (∀ e ∈ c, e.1.1 ≠ e.1.2 → c.cnt (e.1.2, e.1.1) = e.2) := by
  constructor
  · intro hs e hm hne
    have h1 : c.cnt e.1 = e.2 := cnt_of_mem_nodup c e hnd hm
    have h2 := hs e.1.1 e.1.2 hne
    rw [← h1]
    rw [← h2]
  · intro hcl a b hab
    cases hk : c.hasKey (a, b) with
    | true =>
      obtain ⟨e, _, hm, hek, hcnt⟩ := find?_eq_some_of_hasKey c (a, b) hk
      have := hcl e hm (by rw [hek]; exact hab)
      rw [hek] at this
      rw [hcnt, this]
    | false =>
      rw [cnt_eq_zero_of_not_hasKey c _ hk]
      cases hk' : c.hasKey (b, a) with
      | true =>
        obtain ⟨e, _, hm, hek, hcnt⟩ := find?_eq_some_of_hasKey c (b, a) hk'
        have := hcl e hm (by rw [hek]; exact hab.symm)
        rw [hek] at this
        rw [cnt_eq_zero_of_not_hasKey c _ hk] at this
        have := hpos e hm
        omega
      | false =>
        rw [cnt_eq_zero_of_not_hasKey c _ hk']

theorem keys_setFirst (c : Counter) (k : VPair) (n : Int) :
    (c.setFirst k n).map (fun e => e.1) = c.map (fun e => e.1) := by
  induction c with
  | nil => rfl
  | cons e t ih =>
    by_cases he : e.1 = k
    · simp only [Counter.setFirst]
      rw [if_pos he]
      simp only [List.map_cons, he]
    · simp only [Counter.setFirst, if_neg he, List.map_cons, ih]

theorem mem_setFirst (c : Counter) (k : VPair) (n : Int) (a : VPair × Int)
    (ha : a ∈ c.setFirst k n) : a ∈ c ∨ a = (k, n) := by
  induction c with
  | nil => cases ha
  | cons e t ih =>
    by_cases he : e.1 = k
    · simp only [Counter.setFirst, if_pos he, List.mem_cons] at ha
      rcases ha with rfl | ha
      · exact Or.inr rfl
      · exact Or.inl (List.mem_cons_of_mem e ha)
    · simp only [Counter.setFirst, if_neg he, List.mem_cons] at ha
      rcases ha with rfl | ha
      · exact Or.inl (List.mem_cons_self a t)
      · rcases ih ha with h | h
        · exact Or.inl (List.mem_cons_of_mem e h)
        · exact Or.inr h

theorem eraseFirst_sublist (c : Counter) (k : VPair) : (c.eraseFirst k).Sublist c := by
  induction c with
  | nil => exact List.Sublist.refl _
  | cons e t ih =>
    by_cases he : e.1 = k
    · simp only [Counter.eraseFirst, if_pos he]
      exact List.sublist_cons_self e t
    · simp only [Counter.eraseFirst, if_neg he]
      exact ih.cons₂ e

theorem cnt_setFirst_self (c : Counter) (k : VPair) (n : Int) (h : c.hasKey k = true) :
    (c.setFirst k n).cnt k = n := by
  induction c with
  | nil => simp [Counter.hasKey] at h
  | cons e t ih =>
    by_cases he : e.1 = k
    · simp only [Counter.setFirst, if_pos he]
      exact cnt_cons_pos (k, n) t k rfl
    · simp only [Counter.setFirst, if_neg he]
      rw [cnt_cons_neg e _ k he]
      refine ih ?_
      have h' := h
      simp only [Counter.hasKey, List.any_cons, Bool.or_eq_true, decide_eq_true_eq] at h'
      rcases h' with h1 | h1
      · exact absurd h1 he
      · exact h1

theorem cnt_setFirst_ne (c : Counter) (k k' : VPair) (n : Int) (h : k' ≠ k) :
    (c.setFirst k n).cnt k' = c.cnt k' := by
  induction c with
  | nil => rfl
  | cons e t ih =>
    by_cases he : e.1 = k
    · simp only [Counter.setFirst, if_pos he]
      rw [cnt_cons_neg (k, n) t k' (by simp [h.symm]), cnt_cons_neg e t k' (by rw [he]; exact fun hh => h hh.symm)]
    · simp only [Counter.setFirst, if_neg he]
      by_cases he' : e.1 = k'
      · rw [cnt_cons_pos e _ k' he', cnt_cons_pos e t k' he']
      · rw [cnt_cons_neg e _ k' he', cnt_cons_neg e t k' he', ih]

theorem cnt_eraseFirst_ne (c : Counter) (k k' : VPair) (h : k' ≠ k) :
    (c.eraseFirst k).cnt k' = c.cnt k' := by
  induction c with
  | nil => rfl
  | cons e t ih =>
    by_cases he : e.1 = k
    · simp only [Counter.eraseFirst, if_pos he]
      rw [cnt_cons_neg e t k' (by rw [he]; exact fun hh => h hh.symm)]
    · simp only [Counter.eraseFirst, if_neg he]
      by_cases he' : e.1 = k'
      · rw [cnt_cons_pos e _ k' he', cnt_cons_pos e t k' he']
      · rw [cnt_cons_neg e _ k' he', cnt_cons_neg e t k' he', ih]

theorem hasKey_eraseFirst_self (c : Counter) (k : VPair) (hnd : c.NodupKeys) :
    (c.eraseFirst k).hasKey k = false := by
  induction c with
  | nil => rfl
  | cons e t ih =>
    unfold NodupKeys at hnd
    simp only [List.map_cons, List.nodup_cons] at hnd
    by_cases he : e.1 = k
    · simp only [Counter.eraseFirst, if_pos he]
      cases hk : Counter.hasKey t k
      · rfl
      · exfalso
        unfold Counter.hasKey at hk
        rw [List.any_eq_true] at hk
        obtain ⟨x, hx, hxk⟩ := hk
        simp only [decide_eq_true_eq] at hxk
        exact hnd.1 (he ▸ hxk ▸ List.mem_map_of_mem (fun e => e.1) hx)
    · simp only [Counter.eraseFirst, if_neg he, Counter.hasKey, List.any_cons]
      have := ih hnd.2
      unfold Counter.hasKey at this
      rw [this]
      simp [he]

theorem cnt_append_single_ne (c : Counter) (k k' : VPair) (v : Int) (h : k' ≠ k) :
    (c ++ [(k, v)] : Counter).cnt k' = c.cnt k' := by
  induction c with
  | nil =>
    simp only [List.nil_append]
    rw [cnt_cons_neg (k, v) [] k' (by simp [h.symm])]
  | cons e t ih =>
    by_cases he : e.1 = k'
    · rw [List.cons_append, cnt_cons_pos e _ k' he, cnt_cons_pos e t k' he]
    · rw [List.cons_append, cnt_cons_neg e _ k' he, cnt_cons_neg e t k' he, ih]

theorem cnt_append_single_self (c : Counter) (k : VPair) (v : Int)
    (h : c.hasKey k = false) :
    (c ++ [(k, v)] : Counter).cnt k = v := by
  induction c with
  | nil =>
    simp only [List.nil_append]
    exact cnt_cons_pos (k, v) [] k rfl
  | cons e t ih =>
    simp only [Counter.hasKey, List.any_cons, Bool.or_eq_false_iff,
      decide_eq_false_iff_not] at h
    rw [List.cons_append, cnt_cons_neg e _ k h.1]
    exact ih h.2

theorem cnt_incr (c : Counter) (k k' : VPair) :
    (c.incr k).cnt k' = c.cnt k' + (if k' = k then 1 else 0) := by
  unfold Counter.incr
  by_cases h : c.hasKey k = true
  · rw [if_pos h]
    by_cases hk : k' = k
    · subst hk
      rw [cnt_setFirst_self c k' _ h, if_pos rfl]
    · rw [cnt_setFirst_ne c k k' _ hk, if_neg hk]
      ring
  · rw [if_neg h]
    by_cases hk : k' = k
    · subst hk
      rw [cnt_append_single_self c k' 1 (by simpa using h),
        cnt_eq_zero_of_not_hasKey c k' (by simpa using h), if_pos rfl]
      ring
    · rw [cnt_append_single_ne c k k' 1 hk, if_neg hk]
      ring

theorem cnt_decr (c : Counter) (k k' : VPair) (hnd : c.NodupKeys) :
    (c.decr k).cnt k' = c.cnt k' - (if k' = k then 1 else 0) := by
  unfold Counter.decr
  by_cases h : c.hasKey k = true
  · rw [if_pos h]
    by_cases hz : c.cnt k - 1 = 0
    · rw [if_pos hz]
      by_cases hk : k' = k
      · subst hk
        rw [cnt_eq_zero_of_not_hasKey _ k' (hasKey_eraseFirst_self c k' hnd), if_pos rfl]
        omega
      · rw [cnt_eraseFirst_ne c k k' hk, if_neg hk]
        ring
    · rw [if_neg hz]
      by_cases hk : k' = k
      · subst hk
        rw [cnt_setFirst_self c k' _ h, if_pos rfl]
      · rw [cnt_setFirst_ne c k k' _ hk, if_neg hk]
        ring
  · rw [if_neg h]
    by_cases hk : k' = k
    · subst hk
      rw [cnt_append_single_self c k' (-1) (by simpa using h),
        cnt_eq_zero_of_not_hasKey c k' (by simpa using h), if_pos rfl]
      ring
    · rw [cnt_append_single_ne c k k' (-1) hk, if_neg hk]
      ring

theorem nodupKeys_incr (c : Counter) (k : VPair) (hnd : c.NodupKeys) :
    (c.incr k).NodupKeys := by
  unfold Counter.incr
  by_cases h : c.hasKey k = true
  · rw [if_pos h]
    unfold NodupKeys
    rw [keys_setFirst]
    exact hnd
  · rw [if_neg h]
    unfold NodupKeys at hnd ⊢
    rw [List.map_append]
    simp only [List.map_cons, List.map_nil]
    rw [List.nodup_append]
    refine ⟨hnd, List.nodup_singleton k, ?_⟩
    intro a ha hb
    simp only [List.mem_singleton] at hb
    subst hb
    obtain ⟨e, hm, he⟩ := List.mem_map.mp ha
    have : c.hasKey a = true := by
      unfold Counter.hasKey
      rw [List.any_eq_true]
      exact ⟨e, hm, by simp [he]⟩
    rw [this] at h
    exact h rfl

theorem nodupKeys_decr (c : Counter) (k : VPair) (hnd : c.NodupKeys) :
    (c.decr k).NodupKeys := by
  unfold Counter.decr
  by_cases h : c.hasKey k = true
  · rw [if_pos h]
    by_cases hz : c.cnt k - 1 = 0
    · rw [if_pos hz]
      unfold NodupKeys at hnd ⊢
      exact ((eraseFirst_sublist c k).map (fun e => e.1)).nodup hnd
    · rw [if_neg hz]
      unfold NodupKeys
      rw [keys_setFirst]
      exact hnd
  · rw [if_neg h]
    unfold NodupKeys at hnd ⊢
    rw [List.map_append]
    simp only [List.map_cons, List.map_nil]
    rw [List.nodup_append]
    refine ⟨hnd, List.nodup_singleton k, ?_⟩
    intro a ha hb
    simp only [List.mem_singleton] at hb
    subst hb
    obtain ⟨e, hm, he⟩ := List.mem_map.mp ha
    have : c.hasKey a = true := by
      unfold Counter.hasKey
      rw [List.any_eq_true]
      exact ⟨e, hm, by simp [he]⟩
    rw [this] at h
    exact h rfl

theorem posEntries_incr (c : Counter) (k : VPair) (hpos : c.PosEntries) :
    (c.incr k).PosEntries := by
  unfold Counter.incr
  by_cases h : c.hasKey k = true
  · rw [if_pos h]
    intro e he
    rcases mem_setFirst c k _ e he with hm | rfl
    · exact hpos e hm
    · obtain ⟨f, _, hfm, _, hcnt⟩ := find?_eq_some_of_hasKey c k h
      have := hpos f hfm
      simp only
      omega
  · rw [if_neg h]
    intro e he
    rcases List.mem_append.mp he with hm | hm
    · exact hpos e hm
    · simp only [List.mem_singleton] at hm
      subst hm
      norm_num

theorem posEntries_decr (c : Counter) (k : VPair) (hpos : c.PosEntries)
    (hc : 0 < c.cnt k) : (c.decr k).PosEntries := by
  unfold Counter.decr
  rw [if_pos (hasKey_of_cnt_pos c k hc)]
  by_cases hz : c.cnt k - 1 = 0
  · rw [if_pos hz]
    intro e he
    exact hpos e ((eraseFirst_sublist c k).mem he)
  · rw [if_neg hz]
    intro e he
    rcases mem_setFirst c k _ e he with hm | rfl
    · exact hpos e hm
    · simp only
      omega

theorem cnt_pos_of_hasKey (c : Counter) (k : VPair) (hpos : c.PosEntries)
    (h : c.hasKey k = true) : 0 < c.cnt k := by
  obtain ⟨e, _, hm, _, hcnt⟩ := find?_eq_some_of_hasKey c k h
  rw [hcnt]
  exact hpos e hm

/-- Swapping both components of a pair on both sides of an equality test
leaves an `if` unchanged. -/
theorem ite_swap_eq (a b u v : Int) (x y : Int) :
    (if ((a, b) : VPair) = (u, v) then x else y) =
      (if ((b, a) : VPair) = (v, u) then x else y) := by
  by_cases hh : ((a, b) : VPair) = (u, v)
  · rw [if_pos hh, if_pos (by rw [Prod.mk.injEq] at hh ⊢; exact ⟨hh.2, hh.1⟩)]
  · rw [if_neg hh, if_neg (fun hc => hh (by rw [Prod.mk.injEq] at hc ⊢; exact ⟨hc.2, hc.1⟩))]

end Counter

namespace SwitchGraph

theorem WF.symmOf (g : SwitchGraph) (h : WF g) (hdir : g.directed = false) :
    g.edges.Symm :=
  (Counter.symm_iff_entrywise _ h.1 h.2.1).mpr (h.2.2 hdir)

theorem directed_eq_false_of_not (g : SwitchGraph) (h : ¬g.directed = true) :
    g.directed = false := by
  cases hb : g.directed
  · rfl
  · exact absurd hb h

theorem WF_insert (g : SwitchGraph) (u v : Int) (h : WF g) : WF (g.insert u v) := by
  obtain ⟨hnd, hpos, hmir⟩ := h
  unfold insert
  by_cases hcnd : (¬g.directed = true ∧ u ≠ v)
  · rw [if_pos hcnd]
    have hdir : g.directed = false := directed_eq_false_of_not g hcnd.1
    have hsym : g.edges.Symm := (Counter.symm_iff_entrywise _ hnd hpos).mpr (hmir hdir)
    simp only [insertOne]
    have hnd2 := Counter.nodupKeys_incr _ (v, u) (Counter.nodupKeys_incr _ (u, v) hnd)
    have hpos2 := Counter.posEntries_incr _ (v, u) (Counter.posEntries_incr _ (u, v) hpos)
    refine ⟨hnd2, hpos2, ?_⟩
    intro _ e hm hne
    refine (Counter.symm_iff_entrywise _ hnd2 hpos2).mp ?_ e hm hne
    intro a b hab
    rw [Counter.cnt_incr, Counter.cnt_incr, Counter.cnt_incr, Counter.cnt_incr,
      hsym a b hab, Counter.ite_swap_eq a b v u, Counter.ite_swap_eq a b u v]
    ring
  · rw [if_neg hcnd]
    simp only [insertOne]
    have hnd2 := Counter.nodupKeys_incr _ (u, v) hnd
    have hpos2 := Counter.posEntries_incr _ (u, v) hpos
    refine ⟨hnd2, hpos2, ?_⟩
    intro hdir e hm hne
    have hgdir : g.directed = false := hdir
    rcases not_and_or.mp hcnd with hd | huv
    · rw [not_not] at hd
      rw [hgdir] at hd
      cases hd
    · rw [not_not] at huv
      subst huv
      have hsym : g.edges.Symm := (Counter.symm_iff_entrywise _ hnd hpos).mpr (hmir hgdir)
      refine (Counter.symm_iff_entrywise _ hnd2 hpos2).mp ?_ e hm hne
      intro a b hab
      rw [Counter.cnt_incr, Counter.cnt_incr, hsym a b hab,
        Counter.ite_swap_eq a b u u]

theorem WF_remove (g : SwitchGraph) (u v : Int) (h : WF g)
    (hc : 0 < g.edges.cnt (u, v)) : WF (g.remove u v) := by
  obtain ⟨hnd, hpos, hmir⟩ := h
  unfold remove
  by_cases hcnd : (¬g.directed = true ∧ u ≠ v)
  · rw [if_pos hcnd]
    have hdir : g.directed = false := directed_eq_false_of_not g hcnd.1
    have hsym : g.edges.Symm := (Counter.symm_iff_entrywise _ hnd hpos).mpr (hmir hdir)
    have hcvu : 0 < g.edges.cnt (v, u) := by
      rw [← hsym u v hcnd.2]
      exact hc
    simp only [removeOne]
    have hnd1 := Counter.nodupKeys_decr _ (u, v) hnd
    have hpos1 := Counter.posEntries_decr _ (u, v) hpos hc
    have hc1 : 0 < (g.edges.decr (u, v)).cnt (v, u) := by
      have hvu : ((v, u) : VPair) ≠ (u, v) := by
        intro hh
        rw [Prod.mk.injEq] at hh
        exact hcnd.2 hh.1.symm
      rw [Counter.cnt_decr _ _ _ hnd, if_neg hvu]
      omega
    have hnd2 := Counter.nodupKeys_decr _ (v, u) hnd1
    have hpos2 := Counter.posEntries_decr _ (v, u) hpos1 hc1
    refine ⟨hnd2, hpos2, ?_⟩
    intro _ e hm hne
    refine (Counter.symm_iff_entrywise _ hnd2 hpos2).mp ?_ e hm hne
    intro a b hab
    rw [Counter.cnt_decr _ _ _ hnd1, Counter.cnt_decr _ _ _ hnd,
      Counter.cnt_decr _ _ _ hnd1, Counter.cnt_decr _ _ _ hnd,
      hsym a b hab, Counter.ite_swap_eq a b v u, Counter.ite_swap_eq a b u v]
    ring
  · rw [if_neg hcnd]
    simp only [removeOne]
    have hnd2 := Counter.nodupKeys_decr _ (u, v) hnd
    have hpos2 := Counter.posEntries_decr _ (u, v) hpos hc
    refine ⟨hnd2, hpos2, ?_⟩
    intro hdir e hm hne
    have hgdir : g.directed = false := hdir
    rcases not_and_or.mp hcnd with hd | huv
    · rw [not_not] at hd
      rw [hgdir] at hd
      cases hd
    · rw [not_not] at huv
      subst huv
      have hsym : g.edges.Symm := (Counter.symm_iff_entrywise _ hnd hpos).mpr (hmir hgdir)
      refine (Counter.symm_iff_entrywise _ hnd2 hpos2).mp ?_ e hm hne
      intro a b hab
      rw [Counter.cnt_decr _ _ _ hnd, Counter.cnt_decr _ _ _ hnd, hsym a b hab,
        Counter.ite_swap_eq a b u u]

theorem cnt_insert_ge (g : SwitchGraph) (u v : Int) (k : VPair) :
    g.edges.cnt k ≤ (g.insert u v).edges.cnt k := by
  unfold insert
  split
  · simp only [insertOne]
    rw [Counter.cnt_incr, Counter.cnt_incr]
    split_ifs <;> omega
  · simp only [insertOne]
    rw [Counter.cnt_incr]
    split_ifs <;> omega

theorem cnt_remove_other (g : SwitchGraph) (u v : Int) (k : VPair)
    (hnd : g.edges.NodupKeys) (h1 : k ≠ (u, v))
    (h2 : g.directed = false → k ≠ (v, u)) :
    (g.remove u v).edges.cnt k = g.edges.cnt k := by
  unfold remove
  by_cases hcnd : (¬g.directed = true ∧ u ≠ v)
  · rw [if_pos hcnd]
    have hdir : g.directed = false := directed_eq_false_of_not g hcnd.1
    simp only [removeOne]
    rw [Counter.cnt_decr _ _ _ (Counter.nodupKeys_decr _ (u, v) hnd),
      Counter.cnt_decr _ _ _ hnd, if_neg h1, if_neg (h2 hdir)]
    ring
  · rw [if_neg hcnd]
    simp only [removeOne]
    rw [Counter.cnt_decr _ _ _ hnd, if_neg h1]
    ring

/-- Well-formedness is preserved under an accepted double-edge swap,
provided both removed edges are live and the second removed edge differs
from the first (and, in undirected mode, from its mirror). -/
theorem WF_swap (g : SwitchGraph) (x1 y1 x2 y2 : Int) (h : WF g)
    (hc1 : 0 < g.edges.cnt (x1, y1)) (hc2 : 0 < g.edges.cnt (x2, y2))
    (hne1 : ((x2, y2) : VPair) ≠ (x1, y1))
    (hne2 : g.directed = false → ((x2, y2) : VPair) ≠ (y1, x1)) :
    WF ((((g.remove x1 y1).insert x1 y2).remove x2 y2).insert x2 y1) := by
  have h1 : WF (g.remove x1 y1) := WF_remove g x1 y1 h hc1
  have h2 : WF ((g.remove x1 y1).insert x1 y2) := WF_insert _ x1 y2 h1
  have hc2' : 0 < ((g.remove x1 y1).insert x1 y2).edges.cnt (x2, y2) := by
    calc (0 : Int) < (g.remove x1 y1).edges.cnt (x2, y2) := by
          rw [cnt_remove_other g x1 y1 (x2, y2) h.1 hne1 hne2]
          exact hc2
      _ ≤ ((g.remove x1 y1).insert x1 y2).edges.cnt (x2, y2) :=
          cnt_insert_ge _ x1 y2 _
  exact WF_insert _ x2 y1 (WF_remove _ x2 y2 h2 hc2')

theorem sortPair_fst_le_snd (p : VPair) : (sortPair p).1 ≤ (sortPair p).2 := by
  unfold sortPair
  split
  · assumption
  · omega

theorem cnt_sortPair (c : Counter) (hs : c.Symm) (p : VPair) :
    c.cnt (sortPair p) = c.cnt p := by
  unfold sortPair
  split
  · rfl
  · exact hs p.2 p.1 (by omega)

theorem ite_directed_false (g : SwitchGraph) (hdir : g.directed = false) (p : VPair) :
    (if g.directed = true then p else sortPair p) = sortPair p := by
  rw [hdir]
  simp

theorem ite_directed_true (g : SwitchGraph) (hdir : g.directed = true) (p : VPair) :
    (if g.directed = true then p else sortPair p) = p := by
  rw [hdir]
  simp

theorem WF_switch (g : SwitchGraph) (first second : VPair) (sl re : Bool)
    (h : WF g) (h1 : g.edges.hasKey first = true) (h2 : g.edges.hasKey second = true) :
    WF ((g.switch first second sl re).2) := by
  have hpos := h.2.1
  have hc : ∀ p : VPair, g.edges.hasKey p = true →
      0 < g.edges.cnt (if g.directed = true then p else sortPair p) := by
    intro p hp
    by_cases hdir : g.directed = true
    · rw [ite_directed_true g hdir]
      exact Counter.cnt_pos_of_hasKey _ _ hpos hp
    · rw [ite_directed_false g (directed_eq_false_of_not g hdir)]
      rw [cnt_sortPair _ (WF.symmOf g h (directed_eq_false_of_not g hdir)) p]
      exact Counter.cnt_pos_of_hasKey _ _ hpos hp
  unfold switch
  dsimp only
  set P1 := (if g.directed = true then first else sortPair first) with hP1
  set P2 := (if g.directed = true then second else sortPair second) with hP2
  have hcP1 : 0 < g.edges.cnt (P1.1, P1.2) := by
    rw [Prod.mk.eta, hP1]
    exact hc first h1
  have hcP2 : 0 < g.edges.cnt (P2.1, P2.2) := by
    rw [Prod.mk.eta, hP2]
    exact hc second h2
  split_ifs with hb1 hb2 hb3 hb4 hb5
  · exact h
  · exact h
  · refine WF_swap g P1.1 P1.2 P2.1 P2.2 h hcP1 hcP2 ?_ ?_
    · intro heq
      rw [Prod.mk.injEq] at heq
      exact hb2 (Or.inl heq.1.symm)
    · intro hdir heq
      rw [Prod.mk.injEq] at heq
      have s1 : P1.1 ≤ P1.2 := by
        rw [hP1, ite_directed_false g hdir]
        exact sortPair_fst_le_snd first
      have s2 : P2.1 ≤ P2.2 := by
        rw [hP2, ite_directed_false g hdir]
        exact sortPair_fst_le_snd second
      have hna : P1.1 ≠ P2.1 := fun hh => hb2 (Or.inl hh)
      have heq1 := heq.1
      have heq2 := heq.2
      omega
  · exact h
  · exact h
  · refine WF_swap g P1.1 P1.2 P2.1 P2.2 h hcP1 hcP2 ?_ ?_
    · intro heq
      rw [Prod.mk.injEq] at heq
      exact hb4 (Or.inl heq.1.symm)
    · intro _ heq
      rw [Prod.mk.injEq] at heq
      exact hb4 (Or.inr (Or.inr (Or.inl heq.1.symm)))

theorem sumOver_nil (f : DEntry → Int) : sumOver f [] = 0 := rfl

theorem sumOver_cons (f : DEntry → Int) (e : DEntry) (t : List DEntry) :
    sumOver f (e :: t) = f e + sumOver f t := by
  simp [sumOver]

theorem sumOver_set (f : DEntry → Int) (ds : List DEntry) (j : Nat) (e e' : DEntry)
    (hj : ds.get? j = some e) :
    sumOver f (ds.set j e') = sumOver f ds - f e + f e' := by
  induction ds generalizing j with
  | nil => cases hj
  | cons x t ih =>
    cases j with
    | zero =>
      simp only [List.get?] at hj
      cases hj
      simp only [List.set, sumOver_cons]
      ring
    | succ n =>
      simp only [List.get?] at hj
      simp only [List.set, sumOver_cons, ih n hj]
      ring

theorem sumOver_perm (f : DEntry → Int) (ds ds' : List DEntry)
    (h : List.Perm ds ds') : sumOver f ds = sumOver f ds' :=
  (h.map f).sum_eq

theorem sumOver_eq_zero (f : DEntry → Int) (ds : List DEntry)
    (h : ∀ e ∈ ds, f e = 0) : sumOver f ds = 0 := by
  induction ds with
  | nil => rfl
  | cons x t ih =>
    rw [sumOver_cons, h x (List.mem_cons_self x t),
      ih (fun e he => h e (List.mem_cons_of_mem x he))]
    ring

theorem sumOver_nonneg (f : DEntry → Int) (ds : List DEntry)
    (h : ∀ e ∈ ds, 0 ≤ f e) : 0 ≤ sumOver f ds := by
  induction ds with
  | nil => norm_num [sumOver_nil]
  | cons x t ih =>
    rw [sumOver_cons]
    have hx := h x (List.mem_cons_self x t)
    have ht := ih (fun e he => h e (List.mem_cons_of_mem x he))
    omega

theorem all_zero_of_sumOver_nonneg (f : DEntry → Int) (ds : List DEntry)
    (hnn : ∀ e ∈ ds, 0 ≤ f e) (hz : sumOver f ds = 0) : ∀ e ∈ ds, f e = 0 := by
  induction ds with
  | nil => intro e he; cases he
  | cons x t ih =>
    rw [sumOver_cons] at hz
    have hx : 0 ≤ f x := hnn x (List.mem_cons_self x t)
    have hts : 0 ≤ sumOver f t :=
      sumOver_nonneg f t (fun e he => hnn e (List.mem_cons_of_mem x he))
    intro e he
    rcases List.mem_cons.mp he with rfl | het
    · omega
    · exact ih (fun a ha => hnn a (List.mem_cons_of_mem x ha)) (by omega) e het

theorem NN_perm (ds ds' : List DEntry) (h : List.Perm ds ds') (hnn : NN ds) : NN ds' :=
  fun e he => hnn e (h.symm.subset he)

theorem NN_set (ds : List DEntry) (j : Nat) (e' : DEntry) (hnn : NN ds)
    (he' : 0 ≤ e'.1 ∧ 0 ≤ e'.2.1) : NN (ds.set j e') := by
  intro a ha
  rcases List.mem_or_eq_of_mem_set ha with h | rfl
  · exact hnn a h
  · exact he'

theorem listGet_ok (l : List α) (j : Nat) (x : α) (h : listGet l j = Except.ok x) :
    l.get? j = some x := by
  unfold listGet at h
  cases hg : l.get? j with
  | none => rw [hg] at h; cases h
  | some y => rw [hg] at h; cases h; rfl

/-- Conservation properties of the innermost loop: per-vertex in-degree
charge (graph in-degree plus the sink's pending `in_deg`) and per-vertex
out-degree charge (graph out-degree plus remaining out-supply) are
invariant, in-demand fields and total in-demand are untouched, total
out-supply decreases exactly by the consumed `in_deg` units, and
nonnegativity is maintained. -/
theorem fddsInner2_spec (re : Bool) (vfrom vto : Int) :
    ∀ (fuel : Nat) (j : Nat) (in_deg : Int) (ds : List DEntry) (ret : SwitchGraph)
      (out : Int × List DEntry × SwitchGraph),
      fddsInner2 re vfrom vto fuel j in_deg ds ret = Except.ok out →
      (∀ e, ds.get? j = some e → e.2.2 = vfrom) →
      ret.directed = true →
      0 ≤ in_deg →
      NN ds →
      (∀ v, out.2.2.inDeg v + (if vto = v then out.1 else 0) =
          ret.inDeg v + (if vto = v then in_deg else 0)) ∧
      (∀ v, out.2.2.outDeg v + outRemOf out.2.1 v = ret.outDeg v + outRemOf ds v) ∧
      (∀ v, inRemOf out.2.1 v = inRemOf ds v) ∧
      (totOut out.2.1 - out.1 = totOut ds - in_deg) ∧
      (totIn out.2.1 = totIn ds) ∧
      (0 ≤ out.1) ∧ NN out.2.1 ∧ out.2.2.directed = true
  | 0, j, in_deg, ds, ret, out => by
    intro h
    cases h
  | fuel + 1, j, in_deg, ds, ret, out => by
    intro h hj hd hnn0 hnn
    unfold fddsInner2 at h
    by_cases hz : in_deg = 0
    · rw [if_pos hz] at h
      cases h
      exact ⟨fun v => rfl, fun v => rfl, fun v => rfl, by ring, rfl, hnn0, hnn, hd⟩
    · rw [if_neg hz] at h
      cases hg : listGet ds j with
      | error e => rw [hg] at h; cases h
      | ok entry =>
        rw [hg] at h
        dsimp only at h
        have hjm : ds.get? j = some entry := listGet_ok ds j entry hg
        have hvn : entry.2.2 = vfrom := hj entry hjm
        have hmem : entry ∈ ds := List.get?_mem hjm
        have hent := hnn entry hmem
        by_cases hez : entry.1 = 0
        · rw [if_pos hez] at h
          cases h
          exact ⟨fun v => rfl, fun v => rfl, fun v => rfl, by ring, rfl, hnn0, hnn, hd⟩
        · rw [if_neg hez] at h
          have hjlt : j < ds.length := by
            cases hlt : Nat.decLt j ds.length with
            | isTrue hh => exact hh
            | isFalse hh =>
              rw [List.get?_eq_none.mpr (by omega)] at hjm
              cases hjm
          set e' : DEntry := (entry.1 - 1, entry.2.1, entry.2.2) with he'
          set ds' := ds.set j e' with hds'
          set ret' := ret.insert vfrom vto with hret'
          have hins_in : ∀ v, ret'.inDeg v = ret.inDeg v + (if vto = v then 1 else 0) :=
            fun v => inDeg_insert_directed ret vfrom vto v hd
          have hins_out : ∀ v, ret'.outDeg v = ret.outDeg v + (if vfrom = v then 1 else 0) :=
            fun v => outDeg_insert_directed ret vfrom vto v hd
          have hins_dir : ret'.directed = true := by
            rw [hret', directed_insert]
            exact hd
          have hset_out : ∀ v, outRemOf ds' v = outRemOf ds v - (if vfrom = v then 1 else 0) := by
            intro v
            unfold outRemOf
            rw [hds', sumOver_set _ ds j entry e' hjm]
            simp only [he', hvn]
            split_ifs <;> ring
          have hset_in : ∀ v, inRemOf ds' v = inRemOf ds v := by
            intro v
            unfold inRemOf
            rw [hds', sumOver_set _ ds j entry e' hjm]
            simp only [he']
            ring
          have hset_totOut : totOut ds' = totOut ds - 1 := by
            unfold totOut
            rw [hds', sumOver_set _ ds j entry e' hjm]
            simp only [he']
            ring
          have hset_totIn : totIn ds' = totIn ds := by
            unfold totIn
            rw [hds', sumOver_set _ ds j entry e' hjm]
            simp only [he']
            ring
          have hnn' : NN ds' :=
            NN_set ds j e' hnn (by constructor <;> (simp only [he']; omega))
          have hnn0' : 0 ≤ in_deg - 1 := by omega
          cases re with
          | false =>
            rw [if_neg (by simp)] at h
            cases h
            refine ⟨?_, ?_, hset_in, ?_, hset_totIn, hnn0', hnn', hins_dir⟩
            · intro v
              rw [hins_in v]
              split_ifs <;> omega
            · intro v
              rw [hins_out v, hset_out v]
              ring
            · rw [hset_totOut]
              ring
          | true =>
            rw [if_pos rfl] at h
            have hj' : ∀ e, ds'.get? j = some e → e.2.2 = vfrom := by
              intro e he
              rw [hds', List.get?_set_eq_of_lt e' hjlt] at he
              cases he
              simp only [he']
              exact hvn
            obtain ⟨ha, hb, hc, hdtot, hetot, hf, hg', hh⟩ :=
              fddsInner2_spec true vfrom vto fuel j (in_deg - 1) ds' ret' out h hj'
                hins_dir hnn0' hnn'
            refine ⟨?_, ?_, ?_, ?_, ?_, hf, hg', hh⟩
            · intro v
              have h1 := ha v
              rw [hins_in v] at h1
              split_ifs at h1 ⊢ <;> omega
            · intro v
              have h1 := hb v
              rw [hins_out v, hset_out v] at h1
              omega
            · intro v
              rw [hc v, hset_in v]
            · rw [hdtot, hset_totOut]
              ring
            · rw [hetot, hset_totIn]

/-- Conservation properties of the middle loop: on normal exit the whole
pending `in_deg` has been converted into in-degree of the sink `vto`,
the out-degree charge is conserved per vertex, in-demand fields are
untouched, and the total out-supply has decreased by exactly `in_deg`. -/
theorem fddsInner1_spec (sl re : Bool) (vto : Int) :
    ∀ (fuel : Nat) (j : Nat) (in_deg : Int) (ds : List DEntry) (ret : SwitchGraph)
      (out : List DEntry × SwitchGraph),
      fddsInner1 sl re vto fuel j in_deg ds ret = Except.ok out →
      ret.directed = true → 0 ≤ in_deg → NN ds →
      (∀ v, out.2.inDeg v = ret.inDeg v + (if vto = v then in_deg else 0)) ∧
      (∀ v, out.2.outDeg v + outRemOf out.1 v = ret.outDeg v + outRemOf ds v) ∧
      (∀ v, inRemOf out.1 v = inRemOf ds v) ∧
      (totOut out.1 = totOut ds - in_deg) ∧
      (totIn out.1 = totIn ds) ∧
      NN out.1 ∧ out.2.directed = true
  | 0, j, in_deg, ds, ret, out => by
    intro h
    cases h
  | fuel + 1, j, in_deg, ds, ret, out => by
    intro h hd hnn0 hnn
    unfold fddsInner1 at h
    by_cases hz : in_deg = 0
    · rw [if_pos hz] at h
      cases h
      refine ⟨fun v => by rw [hz]; split_ifs <;> ring, fun v => rfl, fun v => rfl,
        by rw [hz]; ring, rfl, hnn, hd⟩
    · rw [if_neg hz] at h
      cases hg : listGet ds j with
      | error e =>
        rw [hg] at h
        cases h
      | ok entry =>
        rw [hg] at h
        dsimp only at h
        have hstep : ∃ (j' : Nat) (vfrom : Int),
            (∀ e, ds.get? j' = some e → e.2.2 = vfrom) ∧
            (match fddsInner2 re vfrom vto fuel j' in_deg ds ret with
              | Except.error e => Except.error e
              | Except.ok (in_deg', degseq', ret') =>
                fddsInner1 sl re vto fuel (j' + 1) in_deg' degseq' ret') = Except.ok out := by
          by_cases hskip : vto = entry.2.2 ∧ sl = false
          · rw [if_pos hskip] at h
            cases hg2 : listGet ds (j + 1) with
            | error e =>
              rw [hg2] at h
              cases h
            | ok entry' =>
              rw [hg2] at h
              dsimp only at h
              refine ⟨j + 1, entry'.2.2, ?_, h⟩
              intro e he
              rw [listGet_ok ds (j + 1) entry' hg2] at he
              cases he
              rfl
          · rw [if_neg hskip] at h
            dsimp only at h
            refine ⟨j, entry.2.2, ?_, h⟩
            intro e he
            rw [listGet_ok ds j entry hg] at he
            cases he
            rfl
        obtain ⟨j', vfrom, hjw, h⟩ := hstep
        cases hi2 : fddsInner2 re vfrom vto fuel j' in_deg ds ret with
        | error e =>
          rw [hi2] at h
          cases h
        | ok trip =>
          rw [hi2] at h
          dsimp only at h
          obtain ⟨ha2, hb2, hc2, hd2, he2, hf2, hg2', hh2⟩ :=
            fddsInner2_spec re vfrom vto fuel j' in_deg ds ret trip hi2 hjw hd hnn0 hnn
          obtain ⟨ha1, hb1, hc1, hd1, he1, hf1, hg1'⟩ :=
            fddsInner1_spec sl re vto fuel (j' + 1) trip.1 trip.2.1 trip.2.2 out h
              hh2 hf2 hg2'
          refine ⟨?_, ?_, ?_, ?_, ?_, hf1, hg1'⟩
          · intro v
            have t1 := ha1 v
            have t2 := ha2 v
            split_ifs at t1 t2 ⊢ <;> omega
          · intro v
            have t1 := hb1 v
            have t2 := hb2 v
            omega
          · intro v
            rw [hc1 v, hc2 v]
          · have := hd2
            omega
          · rw [he1, he2]

/-- Conservation properties of the outer greedy loop: whatever state it
is entered in, a successful run turns exactly the remaining per-vertex
in-demand into in-degrees, and — provided total remaining out-supply
equals total remaining in-demand — exactly the remaining per-vertex
out-supply into out-degrees. -/
theorem fddsOuter_spec (sl re : Bool) :
    ∀ (fuel : Nat) (ds : List DEntry) (ret : SwitchGraph) (g : SwitchGraph),
      fddsOuter sl re fuel ds ret = Except.ok g →
      ret.directed = true → NN ds →
      (∀ v, g.inDeg v = ret.inDeg v + inRemOf ds v) ∧
      (totOut ds = totIn ds → ∀ v, g.outDeg v = ret.outDeg v + outRemOf ds v)
  | 0, ds, ret, g => by
    intro h
    cases h
  | fuel + 1, ds, ret, g => by
    intro h hd hnn
    unfold fddsOuter at h
    by_cases hemp : ds.isEmpty = true
    · rw [if_pos hemp] at h
      cases h
    · rw [if_neg hemp] at h
      by_cases hany : ¬ds.any (fun e => decide (0 < e.2.1)) = true
      · rw [if_pos hany] at h
        cases h
        have hzero : ∀ e ∈ ds, e.2.1 = 0 := by
          intro e he
          have h1 : ¬(0 < e.2.1) := by
            intro hgt
            exact hany (List.any_eq_true.mpr ⟨e, he, by simpa using hgt⟩)
          have h2 := (hnn e he).2
          omega
        have hinrem : ∀ v, inRemOf ds v = 0 := by
          intro v
          refine sumOver_eq_zero _ ds ?_
          intro e he
          rw [hzero e he]
          split <;> rfl
        refine ⟨fun v => by rw [hinrem v]; ring, ?_⟩
        intro hsum v
        have htotin : totIn ds = 0 := sumOver_eq_zero _ ds hzero
        have houtzero : ∀ e ∈ ds, e.1 = 0 :=
          all_zero_of_sumOver_nonneg _ ds (fun e he => (hnn e he).1)
            (by rw [← totOut]; omega)
        have houtrem : outRemOf ds v = 0 := by
          refine sumOver_eq_zero _ ds ?_
          intro e he
          rw [houtzero e he]
          split <;> rfl
        rw [houtrem]
        ring
      · rw [if_neg hany] at h
        dsimp only at h
        cases hg : listGet ds (ds.findIdx (fun e => decide (0 < e.2.1))) with
        | error e =>
          rw [hg] at h
          cases h
        | ok entry =>
          rw [hg] at h
          dsimp only at h
          have hjm := listGet_ok ds _ entry hg
          have hmem : entry ∈ ds := List.get?_mem hjm
          have hent := hnn entry hmem
          cases hin : fddsInner1 sl re entry.2.2 fuel 0 entry.2.1
              (ds.set (ds.findIdx (fun e => decide (0 < e.2.1))) (entry.1, 0, entry.2.2))
              ret with
          | error e =>
            rw [hin] at h
            cases h
          | ok pair =>
            rw [hin] at h
            dsimp only at h
            have hset_in : ∀ v,
                inRemOf (ds.set (ds.findIdx (fun e => decide (0 < e.2.1)))
                  (entry.1, 0, entry.2.2)) v =
                inRemOf ds v - (if entry.2.2 = v then entry.2.1 else 0) := by
              intro v
              unfold inRemOf
              rw [sumOver_set _ ds _ entry _ hjm]
              split_ifs <;> ring
            have hset_out : ∀ v,
                outRemOf (ds.set (ds.findIdx (fun e => decide (0 < e.2.1)))
                  (entry.1, 0, entry.2.2)) v = outRemOf ds v := by
              intro v
              unfold outRemOf
              rw [sumOver_set _ ds _ entry _ hjm]
              ring
            have hset_totIn :
                totIn (ds.set (ds.findIdx (fun e => decide (0 < e.2.1)))
                  (entry.1, 0, entry.2.2)) = totIn ds - entry.2.1 := by
              unfold totIn
              rw [sumOver_set _ ds _ entry _ hjm]
              ring
            have hset_totOut :
                totOut (ds.set (ds.findIdx (fun e => decide (0 < e.2.1)))
                  (entry.1, 0, entry.2.2)) = totOut ds := by
              unfold totOut
              rw [sumOver_set _ ds _ entry _ hjm]
              ring
            have hnn1 : NN (ds.set (ds.findIdx (fun e => decide (0 < e.2.1)))
                (entry.1, 0, entry.2.2)) :=
              NN_set ds _ _ hnn (by constructor <;> simp [hent.1])
            obtain ⟨ha1, hb1, hc1, hd1, he1, hf1, hg1⟩ :=
              fddsInner1_spec sl re entry.2.2 fuel 0 entry.2.1 _ ret pair hin hd
                hent.2 hnn1
            have hperm := sortBy_perm dGe pair.1
            obtain ⟨hA, hB⟩ :=
              fddsOuter_spec sl re fuel (sortBy dGe pair.1) pair.2 g h hg1
                (NN_perm pair.1 _ hperm.symm hf1)
            refine ⟨?_, ?_⟩
            · intro v
              have t1 := hA v
              have hpi : inRemOf (sortBy dGe pair.1) v = inRemOf pair.1 v :=
                sumOver_perm _ _ _ hperm
              rw [hpi] at t1
              have t2 := hc1 v
              have t3 := hset_in v
              have t4 := ha1 v
              rw [t2, t3] at t1
              split_ifs at t1 t4 ⊢ <;> omega
            · intro hsum v
              have hTin : totIn (sortBy dGe pair.1) = totIn ds - entry.2.1 := by
                have hp : totIn (sortBy dGe pair.1) = totIn pair.1 :=
                  sumOver_perm _ _ _ hperm
                rw [hp, he1, hset_totIn]
              have hTout : totOut (sortBy dGe pair.1) = totOut ds - entry.2.1 := by
                have hp : totOut (sortBy dGe pair.1) = totOut pair.1 :=
                  sumOver_perm _ _ _ hperm
                rw [hp, hd1, hset_totOut]
              have t1 := hB (by rw [hTin, hTout, hsum]) v
              have hpo : outRemOf (sortBy dGe pair.1) v = outRemOf pair.1 v :=
                sumOver_perm _ _ _ hperm
              rw [hpo] at t1
              have t2 := hb1 v
              rw [hset_out v] at t2
              omega

theorem mkDegseqFrom_vn_ge (l : List (Int × Int)) (n : Nat) :
    ∀ e ∈ mkDegseqFrom n l, (n : Int) ≤ e.2.2 := by
  induction l generalizing n with
  | nil => intro e he; cases he
  | cons p t ih =>
    intro e he
    unfold mkDegseqFrom at he
    rw [List.enumFrom_cons, List.map_cons] at he
    rcases List.mem_cons.mp he with rfl | het
    · simp
    · have := ih (n + 1) e het
      push_cast at this ⊢
      omega

theorem inRemOf_mkDegseqFrom_lt (l : List (Int × Int)) (n : Nat) (v : Int)
    (hv : v < (n : Int)) : inRemOf (mkDegseqFrom n l) v = 0 := by
  refine sumOver_eq_zero _ _ ?_
  intro e he
  have := mkDegseqFrom_vn_ge l n e he
  rw [if_neg (by omega)]

theorem outRemOf_mkDegseqFrom_lt (l : List (Int × Int)) (n : Nat) (v : Int)
    (hv : v < (n : Int)) : outRemOf (mkDegseqFrom n l) v = 0 := by
  refine sumOver_eq_zero _ _ ?_
  intro e he
  have := mkDegseqFrom_vn_ge l n e he
  rw [if_neg (by omega)]

theorem inRemOf_mkDegseqFrom (l : List (Int × Int)) (n : Nat) (i : Nat)
    (hi : i < l.length) :
    inRemOf (mkDegseqFrom n l) ((n : Int) + i) = (l.get ⟨i, hi⟩).1 := by
  induction l generalizing n i with
  | nil => cases hi
  | cons p t ih =>
    unfold mkDegseqFrom inRemOf
    rw [List.enumFrom_cons, List.map_cons, sumOver_cons]
    cases i with
    | zero =>
      rw [if_pos (by push_cast; ring)]
      have hrest : inRemOf (mkDegseqFrom (n + 1) t) ((n : Int) + (0 : Nat)) = 0 := by
        refine inRemOf_mkDegseqFrom_lt t (n + 1) _ ?_
        push_cast
        omega
      unfold inRemOf at hrest
      rw [show ((n : Int) + ((0 : Nat) : Int)) = ((n : Int) + (0 : Nat)) from rfl] at hrest
      unfold mkDegseqFrom at hrest
      rw [hrest]
      simp
    | succ m =>
      rw [if_neg (by push_cast; omega)]
      have hm : m < t.length := by simpa using Nat.lt_of_succ_lt_succ hi
      have := ih (n + 1) m hm
      unfold mkDegseqFrom inRemOf at this
      rw [show ((n : Int) + ((m + 1 : Nat) : Int)) = (((n + 1 : Nat) : Int) + (m : Nat)) by
        push_cast; ring, this]
      simp

theorem outRemOf_mkDegseqFrom (l : List (Int × Int)) (n : Nat) (i : Nat)
    (hi : i < l.length) :
    outRemOf (mkDegseqFrom n l) ((n : Int) + i) = (l.get ⟨i, hi⟩).2 := by
  induction l generalizing n i with
  | nil => cases hi
  | cons p t ih =>
    unfold mkDegseqFrom outRemOf
    rw [List.enumFrom_cons, List.map_cons, sumOver_cons]
    cases i with
    | zero =>
      rw [if_pos (by push_cast; ring)]
      have hrest : outRemOf (mkDegseqFrom (n + 1) t) ((n : Int) + (0 : Nat)) = 0 := by
        refine outRemOf_mkDegseqFrom_lt t (n + 1) _ ?_
        push_cast
        omega
      unfold outRemOf mkDegseqFrom at hrest
      rw [hrest]
      simp
    | succ m =>
      rw [if_neg (by push_cast; omega)]
      have hm : m < t.length := by simpa using Nat.lt_of_succ_lt_succ hi
      have := ih (n + 1) m hm
      unfold mkDegseqFrom outRemOf at this
      rw [show ((n : Int) + ((m + 1 : Nat) : Int)) = (((n + 1 : Nat) : Int) + (m : Nat)) by
        push_cast; ring, this]
      simp

theorem totIn_mkDegseqFrom (l : List (Int × Int)) (n : Nat) :
    totIn (mkDegseqFrom n l) = (l.map Prod.fst).sum := by
  induction l generalizing n with
  | nil => rfl
  | cons p t ih =>
    unfold mkDegseqFrom totIn
    rw [List.enumFrom_cons, List.map_cons, sumOver_cons]
    unfold mkDegseqFrom totIn at ih
    rw [ih (n + 1)]
    simp

theorem totOut_mkDegseqFrom (l : List (Int × Int)) (n : Nat) :
    totOut (mkDegseqFrom n l) = (l.map Prod.snd).sum := by
  induction l generalizing n with
  | nil => rfl
  | cons p t ih =>
    unfold mkDegseqFrom totOut
    rw [List.enumFrom_cons, List.map_cons, sumOver_cons]
    unfold mkDegseqFrom totOut at ih
    rw [ih (n + 1)]
    simp

theorem NN_mkDegseqFrom (l : List (Int × Int)) (n : Nat)
    (h : ∀ p ∈ l, 0 ≤ p.1 ∧ 0 ≤ p.2) : NN (mkDegseqFrom n l) := by
  induction l generalizing n with
  | nil => intro e he; cases he
  | cons p t ih =>
    intro e he
    unfold mkDegseqFrom at he
    rw [List.enumFrom_cons, List.map_cons] at he
    rcases List.mem_cons.mp he with rfl | het
    · have := h p (List.mem_cons_self p t)
      exact ⟨this.2, this.1⟩
    · exact ih (n + 1) (fun q hq => h q (List.mem_cons_of_mem p hq)) e het

end SwitchGraph

/-- C3 counterexample: the claim reads the input pairs as
`(out_deg, in_deg)` and asserts realization always succeeds for
non-negative pairs with equal sums.  Both parts fail on the code:
`[(1,0),(0,1)]` (non-negative, sums `1 = 1`; the claim predicts the arc
`1 → 2`) realizes to the single arc `(2,1)`, giving vertex 1 out-degree
0 and in-degree 1 — the pairs are actually `(in_deg, out_deg)` — and
`[(1,1)]` (non-negative, sums `1 = 1`) raises the non-graphical error
because the only candidate source is the sink itself and self-loops are
disallowed by default. -/
theorem C3_counterexample :
    Cyaron.SwitchGraph.from_directed_degree_sequence [((1 : Int), (0 : Int)), (0, 1)]
        false false 100 =
      Except.ok { directed := true, edges := [((2, 1), 1)] } ∧
    ({ directed := true, edges := [(((2 : Int), (1 : Int)), (1 : Int))] } :
        Cyaron.SwitchGraph).outDeg 1 = 0 ∧
    ({ directed := true, edges := [(((2 : Int), (1 : Int)), (1 : Int))] } :
        Cyaron.SwitchGraph).inDeg 1 = 1 ∧
    Cyaron.SwitchGraph.from_directed_degree_sequence [((1 : Int), (1 : Int))]
        false false 100 =
      Except.error "Degree sequence is not graphical." :=
  ⟨rfl, by decide, by decide, rfl⟩

/-- C3 amended: a negative entry, and unequal component sums for a
non-empty sequence, raise the non-graphical `ValueError`; and whenever
the greedy realization returns a graph, vertex `i+1` has in-degree equal
to the FIRST component and out-degree equal to the SECOND component of
its pair — the pairs are `(in_deg, out_deg)`, and success is not
guaranteed by non-negativity plus equal sums alone. -/
theorem C3_from_directed_degree_sequence_spec (degree_sequence : List (Int × Int))
    (self_loop repeated_edges : Bool) (fuel : Nat) :
    (degree_sequence.any (fun p => decide (p.1 < 0 ∨ p.2 < 0)) = true →
      Cyaron.SwitchGraph.from_directed_degree_sequence degree_sequence
          self_loop repeated_edges fuel =
        Except.error "Degree sequence is not graphical.") ∧
    (¬degree_sequence.isEmpty = true →
      degree_sequence.any (fun p => decide (p.1 < 0 ∨ p.2 < 0)) = false →
      (degree_sequence.map Prod.fst).sum ≠ (degree_sequence.map Prod.snd).sum →
      Cyaron.SwitchGraph.from_directed_degree_sequence degree_sequence
          self_loop repeated_edges fuel =
        Except.error "Degree sequence is not graphical.") ∧
    (∀ g, Cyaron.SwitchGraph.from_directed_degree_sequence degree_sequence
          self_loop repeated_edges fuel = Except.ok g →
      ∀ (i : Nat) (hi : i < degree_sequence.length),
        g.inDeg ((1 : Int) + (i : Nat)) = (degree_sequence.get ⟨i, hi⟩).1 ∧
        g.outDeg ((1 : Int) + (i : Nat)) = (degree_sequence.get ⟨i, hi⟩).2) := by
  refine ⟨?_, ?_, ?_⟩
  · intro hneg
    unfold Cyaron.SwitchGraph.from_directed_degree_sequence
    rw [if_pos hneg]
  · intro hne hneg hsum
    unfold Cyaron.SwitchGraph.from_directed_degree_sequence
    rw [if_neg (by rw [hneg]; simp), if_neg hne, if_pos hsum]
  · intro g h i hi
    unfold Cyaron.SwitchGraph.from_directed_degree_sequence at h
    by_cases hneg : degree_sequence.any (fun p => decide (p.1 < 0 ∨ p.2 < 0)) = true
    · rw [if_pos hneg] at h
      cases h
    · rw [if_neg hneg] at h
      by_cases hne : degree_sequence.isEmpty = true
      · rw [if_pos hne] at h
        cases h
      · rw [if_neg hne] at h
        by_cases hsum : (degree_sequence.map Prod.fst).sum ≠
            (degree_sequence.map Prod.snd).sum
        · rw [if_pos hsum] at h
          cases h
        · rw [if_neg hsum] at h
          rw [not_not] at hsum
          cases hout : Cyaron.SwitchGraph.fddsOuter self_loop repeated_edges fuel
              (Cyaron.sortBy Cyaron.SwitchGraph.dGe
                (Cyaron.SwitchGraph.mkDegseqFrom 1 degree_sequence))
              { directed := true, edges := [] } with
          | error e =>
            rw [hout] at h
            dsimp only at h
            split_ifs at h
          | ok g' =>
            rw [hout] at h
            cases h
            have hallpos : ∀ p ∈ degree_sequence, 0 ≤ p.1 ∧ 0 ≤ p.2 := by
              intro p hp
              have h1 : ¬(decide (p.1 < 0 ∨ p.2 < 0) = true) := fun hdec =>
                hneg (List.any_eq_true.mpr ⟨p, hp, hdec⟩)
              simp only [decide_eq_true_eq] at h1
              push_neg at h1
              omega
            have hperm := Cyaron.sortBy_perm Cyaron.SwitchGraph.dGe
              (Cyaron.SwitchGraph.mkDegseqFrom 1 degree_sequence)
            have hnn : Cyaron.SwitchGraph.NN (Cyaron.sortBy Cyaron.SwitchGraph.dGe
                (Cyaron.SwitchGraph.mkDegseqFrom 1 degree_sequence)) :=
              Cyaron.SwitchGraph.NN_perm _ _ hperm.symm
                (Cyaron.SwitchGraph.NN_mkDegseqFrom degree_sequence 1 hallpos)
            obtain ⟨hA, hB⟩ := Cyaron.SwitchGraph.fddsOuter_spec self_loop repeated_edges
              fuel _ _ _ hout rfl hnn
            have hsums : Cyaron.SwitchGraph.totOut (Cyaron.sortBy Cyaron.SwitchGraph.dGe
                  (Cyaron.SwitchGraph.mkDegseqFrom 1 degree_sequence)) =
                Cyaron.SwitchGraph.totIn (Cyaron.sortBy Cyaron.SwitchGraph.dGe
                  (Cyaron.SwitchGraph.mkDegseqFrom 1 degree_sequence)) := by
              have h1 : Cyaron.SwitchGraph.totOut (Cyaron.sortBy Cyaron.SwitchGraph.dGe
                    (Cyaron.SwitchGraph.mkDegseqFrom 1 degree_sequence)) =
                  Cyaron.SwitchGraph.totOut
                    (Cyaron.SwitchGraph.mkDegseqFrom 1 degree_sequence) :=
                Cyaron.SwitchGraph.sumOver_perm _ _ _ hperm
              have h2 : Cyaron.SwitchGraph.totIn (Cyaron.sortBy Cyaron.SwitchGraph.dGe
                    (Cyaron.SwitchGraph.mkDegseqFrom 1 degree_sequence)) =
                  Cyaron.SwitchGraph.totIn
                    (Cyaron.SwitchGraph.mkDegseqFrom 1 degree_sequence) :=
                Cyaron.SwitchGraph.sumOver_perm _ _ _ hperm
              rw [h1, h2, Cyaron.SwitchGraph.totOut_mkDegseqFrom,
                Cyaron.SwitchGraph.totIn_mkDegseqFrom, hsum]
            constructor
            · have t1 := hA ((1 : Int) + (i : Nat))
              have t2 : Cyaron.SwitchGraph.inRemOf (Cyaron.sortBy Cyaron.SwitchGraph.dGe
                    (Cyaron.SwitchGraph.mkDegseqFrom 1 degree_sequence))
                    ((1 : Int) + (i : Nat)) =
                  (degree_sequence.get ⟨i, hi⟩).1 := by
                have hp : Cyaron.SwitchGraph.inRemOf (Cyaron.sortBy Cyaron.SwitchGraph.dGe
                      (Cyaron.SwitchGraph.mkDegseqFrom 1 degree_sequence))
                      ((1 : Int) + (i : Nat)) =
                    Cyaron.SwitchGraph.inRemOf
                      (Cyaron.SwitchGraph.mkDegseqFrom 1 degree_sequence)
                      ((1 : Int) + (i : Nat)) :=
                  Cyaron.SwitchGraph.sumOver_perm _ _ _ hperm
                rw [hp]
                have := Cyaron.SwitchGraph.inRemOf_mkDegseqFrom degree_sequence 1 i hi
                simpa using this
              rw [t2] at t1
              have hz : Cyaron.SwitchGraph.inDeg
                  { directed := true, edges := [] } ((1 : Int) + (i : Nat)) = 0 := rfl
              rw [hz] at t1
              omega
            · have t1 := hB hsums ((1 : Int) + (i : Nat))
              have t2 : Cyaron.SwitchGraph.outRemOf (Cyaron.sortBy Cyaron.SwitchGraph.dGe
                    (Cyaron.SwitchGraph.mkDegseqFrom 1 degree_sequence))
                    ((1 : Int) + (i : Nat)) =
                  (degree_sequence.get ⟨i, hi⟩).2 := by
                have hp : Cyaron.SwitchGraph.outRemOf (Cyaron.sortBy Cyaron.SwitchGraph.dGe
                      (Cyaron.SwitchGraph.mkDegseqFrom 1 degree_sequence))
                      ((1 : Int) + (i : Nat)) =
                    Cyaron.SwitchGraph.outRemOf
                      (Cyaron.SwitchGraph.mkDegseqFrom 1 degree_sequence)
                      ((1 : Int) + (i : Nat)) :=
                  Cyaron.SwitchGraph.sumOver_perm _ _ _ hperm
                rw [hp]
                have := Cyaron.SwitchGraph.outRemOf_mkDegseqFrom degree_sequence 1 i hi
                simpa using this
              rw [t2] at t1
              have hz : Cyaron.SwitchGraph.outDeg
                  { directed := true, edges := [] } ((1 : Int) + (i : Nat)) = 0 := rfl
              rw [hz] at t1
              omega

/-- C3 witness: the validation clauses at `[(-1,0)]` and `[(1,0),(0,0)]`,
and the degree clause at the realized graph of `[(1,0),(0,1)]`, where
vertex 1 receives in-degree 1 and out-degree 0. -/
theorem C3_witness :
    Cyaron.SwitchGraph.from_directed_degree_sequence [((-1 : Int), (0 : Int))]
        false false 5 = Except.error "Degree sequence is not graphical." ∧
    Cyaron.SwitchGraph.from_directed_degree_sequence [((1 : Int), (0 : Int)), (0, 0)]
        false false 5 = Except.error "Degree sequence is not graphical." ∧
    (({ directed := true, edges := [(((2 : Int), (1 : Int)), (1 : Int))] } :
        Cyaron.SwitchGraph).inDeg ((1 : Int) + ((0 : Nat) : Int)) = 1 ∧
     ({ directed := true, edges := [(((2 : Int), (1 : Int)), (1 : Int))] } :
        Cyaron.SwitchGraph).outDeg ((1 : Int) + ((0 : Nat) : Int)) = 0) :=
  ⟨(C3_from_directed_degree_sequence_spec [((-1 : Int), (0 : Int))] false false 5).1
      (by decide),
   (C3_from_directed_degree_sequence_spec [((1 : Int), (0 : Int)), (0, 0)] false false 5).2.1
      (by decide) (by decide) (by decide),
   (C3_from_directed_degree_sequence_spec [((1 : Int), (0 : Int)), (0, 1)] false false 100).2.2
      { directed := true, edges := [((2, 1), 1)] } rfl 0 (by decide)⟩

theorem getD_mem_of_lt (ls : List Nat) (x : Nat) (h : x < ls.length) :
    ls.getD x 0 ∈ ls := by
  rw [List.getD_eq_get?, List.get?_eq_get h]
  simp [List.get_mem]

theorem getD_drop_one (ls : List Nat) (x : Nat) (h1 : 1 ≤ x) :
    (ls.drop 1).getD (x - 1) 0 = ls.getD x 0 := by
  rw [List.getD_eq_get?, List.getD_eq_get?, List.get?_drop,
    show 1 + (x - 1) = x from by omega]

theorem getD_mem_drop (ls : List Nat) (x : Nat) (h1 : 1 ≤ x) (h2 : x < ls.length) :
    ls.getD x 0 ∈ ls.drop 1 := by
  rw [← getD_drop_one ls x h1]
  apply getD_mem_of_lt
  rw [List.length_drop]
  omega

theorem getD_map_lt (f : Nat → Nat) (ls : List Nat) (x : Nat) (h : x < ls.length) :
    (ls.map f).getD x 0 = f (ls.getD x 0) := by
  rw [List.getD_eq_get?, List.getD_eq_get?, List.get?_map, List.get?_eq_get h]
  rfl

theorem mergeStep_drop_toFinset (ls : List Nat) (u v : Nat)
    (hu1 : 1 ≤ u) (huv : u < v) (hvl : v < ls.length)
    (hlu : ls.getD u 0 ≤ u) (hlv : ls.getD v 0 = v) :
    ((mergeStep ls (u, v)).drop 1).toFinset = ((ls.drop 1).toFinset).erase v := by
  have hul : u < ls.length := by omega
  unfold mergeStep
  dsimp only
  rw [hlv]
  ext x
  simp only [Finset.mem_erase, List.mem_toFinset, ← List.map_drop]
  constructor
  · intro hx
    rw [List.mem_map] at hx
    obtain ⟨y, hy, hfy⟩ := hx
    by_cases hyv : y = v
    · rw [if_pos hyv] at hfy
      subst hfy
      exact ⟨by omega, getD_mem_drop ls u hu1 hul⟩
    · rw [if_neg hyv] at hfy
      subst hfy
      exact ⟨hyv, hy⟩
  · rintro ⟨hxv, hx⟩
    rw [List.mem_map]
    exact ⟨x, hx, if_neg hxv⟩

theorem compLabels_card :
    ∀ (es : List (Nat × Nat)) (ls : List Nat),
      (∀ x, x < ls.length → ls.getD x 0 ≤ x) →
      (∀ p ∈ es, 1 ≤ p.1 ∧ p.1 < p.2 ∧ p.2 < ls.length) →
      (es.map Prod.snd).Nodup →
      (∀ p ∈ es, ls.getD p.2 0 = p.2) →
      ((es.foldl mergeStep ls).drop 1).toFinset.card =
        ((ls.drop 1).toFinset).card - es.length
  | [], ls => by
    intros
    simp
  | (u, v) :: rest, ls => by
    intro hle hbound hnd hfix
    have hb := hbound (u, v) (List.mem_cons_self _ _)
    have hfv : ls.getD v 0 = v := hfix (u, v) (List.mem_cons_self _ _)
    have hul : u < ls.length := by
      have := hb.2.1
      have := hb.2.2
      omega
    simp only [List.foldl_cons]
    have hlen' : (mergeStep ls (u, v)).length = ls.length := by
      unfold mergeStep
      simp
    have hgetD' : ∀ x, x < ls.length →
        (mergeStep ls (u, v)).getD x 0 =
          (if ls.getD x 0 = v then ls.getD u 0 else ls.getD x 0) := by
      intro x hx
      unfold mergeStep
      dsimp only
      rw [hfv, getD_map_lt _ ls x hx]
    have hle' : ∀ x, x < (mergeStep ls (u, v)).length →
        (mergeStep ls (u, v)).getD x 0 ≤ x := by
      intro x hx
      rw [hlen'] at hx
      rw [hgetD' x hx]
      have h1 := hle x hx
      have h2 := hle u hul
      split_ifs with hh
      · omega
      · exact h1
    have hbound' : ∀ p ∈ rest, 1 ≤ p.1 ∧ p.1 < p.2 ∧ p.2 < (mergeStep ls (u, v)).length := by
      intro p hp
      rw [hlen']
      exact hbound p (List.mem_cons_of_mem _ hp)
    have hnd' : (rest.map Prod.snd).Nodup := by
      rw [List.map_cons, List.nodup_cons] at hnd
      exact hnd.2
    have hvnotin : v ∉ rest.map Prod.snd := by
      rw [List.map_cons, List.nodup_cons] at hnd
      exact hnd.1
    have hfix' : ∀ p ∈ rest, (mergeStep ls (u, v)).getD p.2 0 = p.2 := by
      intro p hp
      have hpb := hbound p (List.mem_cons_of_mem _ hp)
      rw [hgetD' p.2 hpb.2.2, hfix p (List.mem_cons_of_mem _ hp)]
      rw [if_neg (show ¬(p.2 = v) from fun hh =>
        hvnotin (by rw [← hh]; exact List.mem_map_of_mem Prod.snd hp))]
    have hrec := compLabels_card rest (mergeStep ls (u, v)) hle' hbound' hnd' hfix'
    have hstep := mergeStep_drop_toFinset ls u v hb.1 hb.2.1 hb.2.2 (hle u hul) hfv
    have hvmem : v ∈ (ls.drop 1).toFinset := by
      rw [List.mem_toFinset]
      have := getD_mem_drop ls v (by omega) hb.2.2
      rw [hfv] at this
      exact this
    rw [hrec, hstep, Finset.card_erase_of_mem hvmem]
    simp only [List.length_cons]
    omega

theorem componentCount_eq (n : Nat) (es : List (Nat × Nat))
    (hbound : ∀ p ∈ es, 1 ≤ p.1 ∧ p.1 < p.2 ∧ p.2 ≤ n)
    (hnd : (es.map Prod.snd).Nodup) :
    componentCount n es = n - es.length := by
  unfold componentCount compLabels
  have hgetD : ∀ x, x < n + 1 → (List.range (n + 1)).getD x 0 = x := by
    intro x hx
    rw [List.getD_eq_get?, List.get?_eq_get (by simpa using hx)]
    simp
  have hmain := compLabels_card es (List.range (n + 1))
    (fun x hx => by rw [hgetD x (by simpa using hx)])
    (fun p hp => ⟨(hbound p hp).1, (hbound p hp).2.1, by
      have := (hbound p hp).2.2
      simp only [List.length_range]
      omega⟩)
    hnd
    (fun p hp => hgetD p.2 (by
      have := (hbound p hp).2.2
      omega))
  rw [hmain]
  have hnodup : ((List.range (n + 1)).drop 1).Nodup :=
    (List.drop_sublist 1 _).nodup (List.nodup_range _)
  rw [List.toFinset_card_of_nodup hnodup, List.length_drop, List.length_range]
  omega

theorem flatten_set_append (ls : List (List α)) (i : Nat) (a : α) (hi : i < ls.length) :
    List.Perm (ls.set i ((ls.getD i []) ++ [a])).flatten (ls.flatten ++ [a]) := by
  induction ls generalizing i with
  | nil => cases hi
  | cons b t ih =>
    cases i with
    | zero =>
      simp only [List.set, List.getD_cons_zero, List.flatten_cons, List.append_assoc]
      exact List.Perm.append_left b List.perm_append_comm
    | succ n =>
      simp only [List.set, List.getD_cons_succ, List.flatten_cons, List.append_assoc]
      exact List.Perm.append_left b (ih n (Nat.lt_of_succ_lt_succ hi))

namespace Graph

theorem addEdgeOne_flatten (g : Graph) (x y w : Int) (hx : x.toNat < g.edges.length) :
    List.Perm (g.addEdgeOne x y w).edges.flatten (g.edges.flatten ++ [Edge.mk x y w]) :=
  flatten_set_append g.edges x.toNat (Edge.mk x y w) hx

theorem addEdgeOne_length (g : Graph) (x y w : Int) :
    (g.addEdgeOne x y w).edges.length = g.edges.length := by
  unfold addEdgeOne
  simp

@[simp] theorem addEdgeOne_directed (g : Graph) (x y w : Int) :
    (g.addEdgeOne x y w).directed = g.directed := rfl

@[simp] theorem add_edge_directed (g : Graph) (x y w : Int) :
    (g.add_edge x y w).directed = g.directed := by
  unfold add_edge
  split <;> rfl

theorem add_edge_length (g : Graph) (x y w : Int) :
    (g.add_edge x y w).edges.length = g.edges.length := by
  unfold add_edge
  split
  · rw [addEdgeOne_length, addEdgeOne_length]
  · rw [addEdgeOne_length]

/-- Adding an undirected, upward-oriented edge contributes exactly its
canonical copy to `iterate_edges`, up to reordering. -/
theorem iterate_edges_add_edge (g : Graph) (x y w : Int) (hdir : g.directed = false)
    (hx0 : 0 ≤ x) (hxy : x < y) (hyl : y.toNat < g.edges.length) :
    List.Perm (g.add_edge x y w).iterate_edges (Edge.mk x y w :: g.iterate_edges) := by
  have hxl : x.toNat < g.edges.length := by omega
  have hne : x ≠ y := by omega
  unfold add_edge
  rw [if_pos ⟨by rw [hdir]; simp, hne⟩]
  have h1 := addEdgeOne_flatten g x y w hxl
  have h2 := addEdgeOne_flatten (g.addEdgeOne x y w) y x w
    (by rw [addEdgeOne_length]; exact hyl)
  have hperm : List.Perm ((g.addEdgeOne x y w).addEdgeOne y x w).edges.flatten
      ((g.edges.flatten ++ [Edge.mk x y w]) ++ [Edge.mk y x w]) :=
    h2.trans (h1.append_right _)
  unfold iterate_edges
  have hd2 : ((g.addEdgeOne x y w).addEdgeOne y x w).directed = g.directed := rfl
  rw [hd2, hdir]
  refine (hperm.filter _).trans ?_
  have hpy : (decide ((Edge.mk x y w).end_ ≥ (Edge.mk x y w).start) || false) = true := by
    simp only [Bool.or_false, decide_eq_true_eq]
    omega
  have hpx : (decide ((Edge.mk y x w).end_ ≥ (Edge.mk y x w).start) || false) = false := by
    simp only [Bool.or_false, decide_eq_false_iff_not]
    omega
  rw [List.filter_append, List.filter_append]
  rw [show List.filter (fun e => decide (e.end_ ≥ e.start) || false) [Edge.mk x y w] =
      [Edge.mk x y w] by rw [List.filter_cons, hpy]; rfl]
  rw [show List.filter (fun e => decide (e.end_ ≥ e.start) || false) [Edge.mk y x w] =
      [] by rw [List.filter_cons, hpx]; rfl]
  rw [List.append_nil]
  exact List.perm_append_comm

/-- Folding `add_edge` over a list of upward edges contributes exactly
those edges to `iterate_edges`, up to reordering. -/
theorem iterate_edges_foldl (todo : List Edge) :
    ∀ (g : Graph), g.directed = false →
      (∀ e ∈ todo, 0 ≤ e.start ∧ e.start < e.end_ ∧ e.end_.toNat < g.edges.length) →
      List.Perm
        ((todo.foldl (fun h e => h.add_edge e.start e.end_ e.weight) g).iterate_edges)
        (todo ++ g.iterate_edges) := by
  induction todo with
  | nil =>
    intro g _ _
    exact List.Perm.refl _
  | cons e t ih =>
    intro g hdir hok
    have he := hok e (List.mem_cons_self _ _)
    simp only [List.foldl_cons]
    have hstep := iterate_edges_add_edge g e.start e.end_ e.weight hdir he.1 he.2.1 he.2.2
    have hrest := ih (g.add_edge e.start e.end_ e.weight)
      (by rw [add_edge_directed]; exact hdir)
      (fun e' he' => by
        have := hok e' (List.mem_cons_of_mem _ he')
        rw [add_edge_length]
        exact this)
    refine hrest.trans ?_
    refine (List.Perm.append_left t hstep).trans ?_
    exact List.perm_middle

theorem intRange_length (a b : Int) : (intRange a b).length = (b - a).toNat := by
  unfold intRange
  simp

theorem mem_intRange {a b i : Int} (h : i ∈ intRange a b) : a ≤ i ∧ i < b := by
  unfold intRange at h
  rw [List.mem_map] at h
  obtain ⟨k, hk, hik⟩ := h
  rw [List.mem_range] at hk
  omega

theorem intRange_nodup (a b : Int) : (intRange a b).Nodup :=
  (List.nodup_range _).map (fun x y h => by omega)

theorem init_iterate_edges (pc : Int) (d : Bool) : (init pc d).iterate_edges = [] := by
  unfold init iterate_edges
  dsimp only
  rw [show (List.replicate (pc + 1).toNat ([] : List Edge)).flatten = [] from by
    induction (pc + 1).toNat with
    | zero => rfl
    | succ n ih => rw [List.replicate_succ, List.flatten_cons, List.nil_append, ih]]
  rfl

theorem init_edges_length (pc : Int) (d : Bool) :
    (init pc d).edges.length = (pc + 1).toNat := by
  unfold init
  simp

theorem foldl_add_edge_directed (l : List Edge) :
    ∀ g : Graph, (l.foldl (fun h e => h.add_edge e.start e.end_ e.weight) g).directed =
      g.directed := by
  induction l with
  | nil => intro g; rfl
  | cons e t ih =>
    intro g
    simp only [List.foldl_cons]
    rw [ih, add_edge_directed]

theorem foldl_add_edge_length (l : List Edge) :
    ∀ g : Graph, (l.foldl (fun h e => h.add_edge e.start e.end_ e.weight) g).edges.length =
      g.edges.length := by
  induction l with
  | nil => intro g; rfl
  | cons e t ih =>
    intro g
    simp only [List.foldl_cons]
    rw [ih, add_edge_length]

theorem getD_mem_lt {α : Type} (l : List α) (d : α) (j : Nat) (h : j < l.length) :
    l.getD j d ∈ l := by
  rw [List.getD_eq_get?, List.get?_eq_get h]
  simp [List.get_mem]

theorem getD_eq_get {α : Type} (l : List α) (d : α) (j : Nat) (h : j < l.length) :
    l.getD j d = l.get ⟨j, h⟩ := by
  rw [List.getD_eq_get?, List.get?_eq_get h]
  rfl

theorem filterMap_get?_eq_map {α : Type} (l : List α) (d : α) :
    ∀ idx : List Nat, (∀ j ∈ idx, j < l.length) →
      idx.filterMap (fun j => l.get? j) = idx.map (fun j => l.getD j d) := by
  intro idx
  induction idx with
  | nil => intro; rfl
  | cons j t ih =>
    intro h
    have hj := h j (List.mem_cons_self _ _)
    rw [List.filterMap_cons, List.map_cons, List.get?_eq_get hj,
      ih (fun j' hj' => h j' (List.mem_cons_of_mem _ hj')), getD_eq_get l d j hj]

/-- Distinct positions in an edge list whose child endpoints are
pairwise distinct and nonnegative pick edges with pairwise distinct
`end_.toNat`. -/
theorem sampled_children_nodup (l : List Edge) (idx : List Nat)
    (hnd : idx.Nodup) (hlt : ∀ j ∈ idx, j < l.length)
    (hl : (l.map Edge.end_).Nodup) (hnn : ∀ e ∈ l, 0 ≤ e.end_) :
    ((idx.map (fun j => l.getD j (Edge.mk 0 0 0))).map
      (fun e => e.end_.toNat)).Nodup := by
  rw [List.map_map]
  refine List.Nodup.map_on ?_ hnd
  intro j1 hj1 j2 hj2 heq
  have h1 := hlt j1 hj1
  have h2 := hlt j2 hj2
  rw [Function.comp_apply, Function.comp_apply, getD_eq_get l _ j1 h1,
    getD_eq_get l _ j2 h2] at heq
  have hnn1 := hnn (l.get ⟨j1, h1⟩) (List.get_mem l j1 h1)
  have hnn2 := hnn (l.get ⟨j2, h2⟩) (List.get_mem l j2 h2)
  have hend : (l.get ⟨j1, h1⟩).end_ = (l.get ⟨j2, h2⟩).end_ := by omega
  have hml1 : j1 < (l.map Edge.end_).length := by simpa using h1
  have hml2 : j2 < (l.map Edge.end_).length := by simpa using h2
  have hgm : (l.map Edge.end_).get ⟨j1, hml1⟩ = (l.map Edge.end_).get ⟨j2, hml2⟩ := by
    rw [List.get_map, List.get_map]
    exact hend
  have := (List.Nodup.get_inj_iff hl).mp hgm
  exact congrArg Fin.val this

theorem intRange_self (a : Int) : intRange a a = [] := by
  unfold intRange
  simp

/-- `tree` with `chain = flower = 0` is the pure random-father build:
every vertex `2 .. point_count` is attached to its father. -/
theorem tree_zero (pc : Int) (fathers : Int → Int) (hpc : 1 ≤ pc) :
    tree pc 0 0 fathers =
      Except.ok ((intRange 2 (pc + 1)).foldl
        (fun g i => g.add_edge (fathers i) i 1) (init pc false)) := by
  have hq0 : qTrunc (((pc : ℚ) - 1) * 0) = 0 := by
    rw [mul_zero]
    rfl
  unfold tree
  rw [if_neg (by norm_num), if_neg (by norm_num)]
  dsimp only
  rw [hq0]
  rw [if_neg (show ¬(pc - 1 < (0 : Int)) by omega)]
  simp only [add_zero, zero_add, sub_zero]
  rw [if_neg (show ¬(pc - 1 < (0 : Int)) by omega)]
  simp only [add_zero, zero_add, sub_zero]
  rw [show pc - (pc - 1) + 1 = 2 from by omega]
  rfl

/-- Core of the `forest` analysis: sampling distinct positions of the
canonical edge list of a tree-shaped graph `t` and re-adding them to a
fresh graph yields `sampleIdx.length` canonical edges and
`point_count - sampleIdx.length` components. -/
theorem forest_core (point_count : Int) (t : Graph) (sampleIdx : List Nat)
    (tEdges : List Edge)
    (hdir : t.directed = false)
    (hTperM : List.Perm t.iterate_edges tEdges)
    (hmem : ∀ e ∈ tEdges, 1 ≤ e.start ∧ e.start < e.end_ ∧ e.end_ ≤ point_count)
    (hchild : (tEdges.map Edge.end_).Nodup)
    (hnd : sampleIdx.Nodup)
    (hjlt : ∀ j ∈ sampleIdx, j < tEdges.length)
    (hpc : 1 ≤ point_count) :
    ((sampleIdx.filterMap (fun j => t.iterate_edges.get? j)).foldl
        (fun g e => g.add_edge e.start e.end_ e.weight)
        (Graph.init point_count t.directed)).edge_count = sampleIdx.length ∧
    ((sampleIdx.filterMap (fun j => t.iterate_edges.get? j)).foldl
        (fun g e => g.add_edge e.start e.end_ e.weight)
        (Graph.init point_count t.directed)).component_count =
      point_count.toNat - sampleIdx.length := by
  have hjlt' : ∀ j ∈ sampleIdx, j < t.iterate_edges.length := by
    intro j hj
    rw [hTperM.length_eq]
    exact hjlt j hj
  have hna : sampleIdx.filterMap (fun j => t.iterate_edges.get? j) =
      sampleIdx.map (fun j => t.iterate_edges.getD j (Edge.mk 0 0 0)) :=
    filterMap_get?_eq_map _ _ sampleIdx hjlt'
  have hmem' : ∀ e ∈ t.iterate_edges,
      1 ≤ e.start ∧ e.start < e.end_ ∧ e.end_ ≤ point_count :=
    fun e he => hmem e (hTperM.mem_iff.mp he)
  set need_add := sampleIdx.filterMap (fun j => t.iterate_edges.get? j) with hneed
  have hmemna : ∀ e ∈ need_add,
      1 ≤ e.start ∧ e.start < e.end_ ∧ e.end_ ≤ point_count := by
    intro e he
    rw [hna, List.mem_map] at he
    obtain ⟨j, hj, rfl⟩ := he
    exact hmem' _ (getD_mem_lt _ _ j (hjlt' j hj))
  have hcond : ∀ e ∈ need_add, 0 ≤ e.start ∧ e.start < e.end_ ∧
      e.end_.toNat < (Graph.init point_count t.directed).edges.length := by
    intro e he
    have h := hmemna e he
    rw [Graph.init_edges_length]
    exact ⟨by omega, h.2.1, by omega⟩
  have hresperm := Graph.iterate_edges_foldl need_add
    (Graph.init point_count t.directed) hdir hcond
  rw [Graph.init_iterate_edges, List.append_nil] at hresperm
  constructor
  · unfold Graph.edge_count
    rw [hresperm.length_eq, hna, List.length_map]
  · unfold Graph.component_count
    have hrlen : ((need_add.foldl (fun g e => g.add_edge e.start e.end_ e.weight)
        (Graph.init point_count t.directed)).edges.length) = (point_count + 1).toNat := by
      rw [Graph.foldl_add_edge_length, Graph.init_edges_length]
    rw [hrlen]
    have hbound : ∀ p ∈ ((need_add.foldl (fun g e => g.add_edge e.start e.end_ e.weight)
          (Graph.init point_count t.directed)).iterate_edges.map
            (fun e => (e.start.toNat, e.end_.toNat))),
        1 ≤ p.1 ∧ p.1 < p.2 ∧ p.2 ≤ (point_count + 1).toNat - 1 := by
      intro p hp
      rw [List.mem_map] at hp
      obtain ⟨e, he, rfl⟩ := hp
      have hee := hmemna e (hresperm.mem_iff.mp he)
      refine ⟨?_, ?_, ?_⟩ <;> dsimp only <;> omega
    have htch : (t.iterate_edges.map Edge.end_).Nodup :=
      ((hTperM.map Edge.end_).nodup_iff).mpr hchild
    have hch : (need_add.map (fun e => e.end_.toNat)).Nodup := by
      rw [hna]
      exact sampled_children_nodup t.iterate_edges sampleIdx hnd hjlt' htch
        (fun e he => by have := hmem' e he; omega)
    have hndes : (((need_add.foldl (fun g e => g.add_edge e.start e.end_ e.weight)
          (Graph.init point_count t.directed)).iterate_edges.map
            (fun e => (e.start.toNat, e.end_.toNat))).map Prod.snd).Nodup := by
      rw [List.map_map]
      exact ((hresperm.map (fun e => e.end_.toNat)).nodup_iff).mpr hch
    rw [componentCount_eq ((point_count + 1).toNat - 1) _ hbound hndes]
    rw [List.length_map, hresperm.length_eq, hna, List.length_map]
    omega

end Graph

namespace RangeQuery

theorem getOneQueryGo_spec (mode : RangeQueryRandomMode) (draws : Nat → Int × Int) :
    ∀ (rest : List PosEntry) (i : Nat) (ql qr : List Int),
      (∀ (j : Nat) (h : j < rest.length), ∃ lo hi,
        normRange (rest.get ⟨j, h⟩) = some (lo, hi) ∧ lo ≤ hi ∧
          (mode = RangeQueryRandomMode.less → lo < hi)) →
      (∀ (j : Nat) (h : j < rest.length) (lo hi : Int),
        normRange (rest.get ⟨j, h⟩) = some (lo, hi) →
          lo ≤ (draws (i + j)).1 ∧ (draws (i + j)).1 ≤ hi ∧
          lo ≤ (draws (i + j)).2 ∧ (draws (i + j)).2 ≤ hi ∧
          (mode = RangeQueryRandomMode.less → (draws (i + j)).1 ≠ (draws (i + j)).2)) →
      ∃ ql' qr',
        getOneQueryGo mode draws rest i ql qr = Except.ok (ql ++ ql', qr ++ qr') ∧
        ql'.length = rest.length ∧ qr'.length = rest.length ∧
        (∀ (j : Nat) (h : j < rest.length) (lo hi : Int),
          normRange (rest.get ⟨j, h⟩) = some (lo, hi) →
            lo ≤ ql'.getD j 0 ∧ ql'.getD j 0 ≤ qr'.getD j 0 ∧ qr'.getD j 0 ≤ hi ∧
            (mode = RangeQueryRandomMode.less → ql'.getD j 0 < qr'.getD j 0))
  | [], i, ql, qr => by
    intro _ _
    refine ⟨[], [], by simp [getOneQueryGo], rfl, rfl, ?_⟩
    intro j h
    cases h
  | pr :: rest, i, ql, qr => by
    intro hv hd
    obtain ⟨lo, hi, hn, hle, hlt⟩ := hv 0 (by simp)
    simp only [List.get] at hn
    have hdraw := hd 0 (by simp) lo hi hn
    simp only [Nat.add_zero] at hdraw
    unfold getOneQueryGo
    rw [hn]
    dsimp only
    rw [if_neg (by omega)]
    have hcond : ¬(mode = RangeQueryRandomMode.less ∧ lo = hi) := by
      rintro ⟨hm, he⟩
      have := hlt hm
      omega
    rw [if_neg hcond]
    set a := (if (draws i).1 > (draws i).2 then ((draws i).2, (draws i).1)
      else ((draws i).1, (draws i).2)) with ha
    have hva : lo ≤ a.1 ∧ a.1 ≤ a.2 ∧ a.2 ≤ hi ∧
        (mode = RangeQueryRandomMode.less → a.1 < a.2) := by
      rw [ha]
      split_ifs with hgt
      · refine ⟨by simp; omega, by simp; omega, by simp; omega, ?_⟩
        intro hm
        simp
        omega
      · refine ⟨by simp; omega, by simp; omega, by simp; omega, ?_⟩
        intro hm
        have := hdraw.2.2.2.2 hm
        simp
        omega
    obtain ⟨ql', qr', hmain, hl1, hl2, hbounds⟩ :=
      getOneQueryGo_spec mode draws rest (i + 1) (ql ++ [a.1]) (qr ++ [a.2])
        (fun j h => hv (j + 1) (by simpa using Nat.succ_lt_succ h))
        (fun j h lo' hi' hn' => by
          have := hd (j + 1) (by simpa using Nat.succ_lt_succ h) lo' hi' (by simpa using hn')
          simpa [Nat.add_assoc, Nat.add_comm 1 j] using this)
    refine ⟨a.1 :: ql', a.2 :: qr', ?_, by simpa using hl1, by simpa using hl2, ?_⟩
    · rw [hmain]
      simp
    · intro j h lo' hi' hn'
      cases j with
      | zero =>
        simp only [List.get] at hn'
        rw [hn] at hn'
        cases hn'
        simpa using hva
      | succ m =>
        have hm : m < rest.length := by simpa using Nat.succ_lt_succ_iff.mp h
        have := hbounds m hm lo' hi' (by simpa using hn')
        simpa using this

theorem getOneQueryGo_err (mode : RangeQueryRandomMode) (draws : Nat → Int × Int) :
    ∀ (rest : List PosEntry) (i : Nat) (ql qr : List Int),
      (∀ (j : Nat) (h : j < rest.length), (normRange (rest.get ⟨j, h⟩)).isSome) →
      (∃ (j : Nat) (h : j < rest.length) (lo hi : Int),
        normRange (rest.get ⟨j, h⟩) = some (lo, hi) ∧
          (hi < lo ∨ (mode = RangeQueryRandomMode.less ∧ lo = hi))) →
      (getOneQueryGo mode draws rest i ql qr).isOk = false
  | [], i, ql, qr => by
    rintro _ ⟨j, h, _⟩
    cases h
  | pr :: rest, i, ql, qr => by
    rintro hnorm ⟨j, hj, lo, hi, hn, hbad⟩
    have hn0 := hnorm 0 (by simp)
    rw [Option.isSome_iff_exists] at hn0
    obtain ⟨c, hc⟩ := hn0
    simp only [List.get] at hc
    unfold getOneQueryGo
    rw [hc]
    dsimp only
    by_cases h1 : c.1 > c.2
    · rw [if_pos h1]
      rfl
    · rw [if_neg h1]
      by_cases h2 : mode = RangeQueryRandomMode.less ∧ c.1 = c.2
      · rw [if_pos h2]
        rfl
      · rw [if_neg h2]
        cases j with
        | zero =>
          exfalso
          simp only [List.get] at hn
          rw [hc] at hn
          cases hn
          rcases hbad with hb | hb
          · omega
          · exact h2 hb
        | succ m =>
          have hm : m < rest.length := by simpa using Nat.succ_lt_succ_iff.mp hj
          exact getOneQueryGo_err mode draws rest (i + 1) _ _
            (fun k hk => by simpa using hnorm (k + 1) (by simpa using Nat.succ_lt_succ hk))
            ⟨m, hm, lo, hi, by simpa using hn, hbad⟩

end RangeQuery

/-- C10: for a `position_range` whose every dimension normalizes to a
valid range (`lo ≤ hi`, strictly when the mode is `less`), and draws
within those ranges (distinct in `less` mode, as `random.sample`
guarantees), `get_one_query` returns a pair of lists of equal length
`dimension` with `lo_i ≤ query_l[i] ≤ query_r[i] ≤ hi_i` and
`query_l[i] < query_r[i]` in `less` mode; and if every dimension
normalizes but some dimension is invalid, a `ValueError` is raised
(no result is produced). -/
theorem C10_get_one_query_spec (position_range : List Cyaron.RangeQuery.PosEntry)
    (mode : Cyaron.RangeQueryRandomMode) (draws : Nat → Int × Int) :
    ((∀ (j : Nat) (h : j < position_range.length), ∃ lo hi,
        Cyaron.RangeQuery.normRange (position_range.get ⟨j, h⟩) = some (lo, hi) ∧
        lo ≤ hi ∧ (mode = Cyaron.RangeQueryRandomMode.less → lo < hi)) →
      (∀ (j : Nat) (h : j < position_range.length) (lo hi : Int),
        Cyaron.RangeQuery.normRange (position_range.get ⟨j, h⟩) = some (lo, hi) →
          lo ≤ (draws j).1 ∧ (draws j).1 ≤ hi ∧
          lo ≤ (draws j).2 ∧ (draws j).2 ≤ hi ∧
          (mode = Cyaron.RangeQueryRandomMode.less → (draws j).1 ≠ (draws j).2)) →
      (Cyaron.RangeQuery.get_one_query position_range mode draws).isOk = true ∧
      (Cyaron.RangeQuery.qlOf
        (Cyaron.RangeQuery.get_one_query position_range mode draws)).length =
          position_range.length ∧
      (Cyaron.RangeQuery.qrOf
        (Cyaron.RangeQuery.get_one_query position_range mode draws)).length =
          position_range.length ∧
      (∀ (j : Nat) (h : j < position_range.length) (lo hi : Int),
        Cyaron.RangeQuery.normRange (position_range.get ⟨j, h⟩) = some (lo, hi) →
          lo ≤ (Cyaron.RangeQuery.qlOf
              (Cyaron.RangeQuery.get_one_query position_range mode draws)).getD j 0 ∧
          (Cyaron.RangeQuery.qlOf
              (Cyaron.RangeQuery.get_one_query position_range mode draws)).getD j 0 ≤
            (Cyaron.RangeQuery.qrOf
              (Cyaron.RangeQuery.get_one_query position_range mode draws)).getD j 0 ∧
          (Cyaron.RangeQuery.qrOf
              (Cyaron.RangeQuery.get_one_query position_range mode draws)).getD j 0 ≤ hi ∧
          (mode = Cyaron.RangeQueryRandomMode.less →
            (Cyaron.RangeQuery.qlOf
              (Cyaron.RangeQuery.get_one_query position_range mode draws)).getD j 0 <
            (Cyaron.RangeQuery.qrOf
              (Cyaron.RangeQuery.get_one_query position_range mode draws)).getD j 0))) ∧
    ((∀ (j : Nat) (h : j < position_range.length),
        (Cyaron.RangeQuery.normRange (position_range.get ⟨j, h⟩)).isSome) →
      (∃ (j : Nat) (h : j < position_range.length) (lo hi : Int),
        Cyaron.RangeQuery.normRange (position_range.get ⟨j, h⟩) = some (lo, hi) ∧
          (hi < lo ∨ (mode = Cyaron.RangeQueryRandomMode.less ∧ lo = hi))) →
      (Cyaron.RangeQuery.get_one_query position_range mode draws).isOk = false) := by
  constructor
  · intro hv hd
    obtain ⟨ql', qr', hmain, hl1, hl2, hbounds⟩ :=
      Cyaron.RangeQuery.getOneQueryGo_spec mode draws position_range 0 [] [] hv
        (fun j h lo hi hn => by simpa using hd j h lo hi hn)
    have hres : Cyaron.RangeQuery.get_one_query position_range mode draws =
        Except.ok (ql', qr') := by
      unfold Cyaron.RangeQuery.get_one_query
      simpa using hmain
    rw [hres]
    refine ⟨rfl, hl1, hl2, ?_⟩
    intro j h lo hi hn
    exact hbounds j h lo hi hn
  · intro hnorm hbad
    exact Cyaron.RangeQuery.getOneQueryGo_err mode draws position_range 0 [] [] hnorm hbad

/-- C10 witness: `position_range = [5, (2, 7)]` with `allow_equal` and
the constant draw `(3, 2)` succeeds within bounds, and
`position_range = [0]` (normalizing to the invalid range `(1, 0)`)
raises. -/
theorem C10_witness :
    (Cyaron.RangeQuery.get_one_query [Sum.inl 5, Sum.inr [2, 7]]
      Cyaron.RangeQueryRandomMode.allow_equal (fun _ => (3, 2))).isOk = true ∧
    (Cyaron.RangeQuery.get_one_query [Sum.inl 0]
      Cyaron.RangeQueryRandomMode.allow_equal (fun _ => (3, 2))).isOk = false :=
  ⟨((C10_get_one_query_spec [Sum.inl 5, Sum.inr [2, 7]]
      Cyaron.RangeQueryRandomMode.allow_equal (fun _ => (3, 2))).1
      (fun j h => by
        simp only [List.length_cons, List.length_nil] at h
        interval_cases j
        · exact ⟨1, 5, rfl, by decide, by decide⟩
        · exact ⟨2, 7, rfl, by decide, by decide⟩)
      (fun j h lo hi hn => by
        simp only [List.length_cons, List.length_nil] at h
        interval_cases j
        · cases hn
          refine ⟨by decide, by decide, by decide, by decide, by decide⟩
        · cases hn
          refine ⟨by decide, by decide, by decide, by decide, by decide⟩)).1,
   (C10_get_one_query_spec [Sum.inl 0]
      Cyaron.RangeQueryRandomMode.allow_equal (fun _ => (3, 2))).2
      (fun j h => by
        simp only [List.length_cons, List.length_nil] at h
        interval_cases j
        rfl)
      ⟨0, by decide, 1, 0, rfl, Or.inl (by decide)⟩⟩

/-- C6 counterexample: `hack_spfa(point_count=6, extra_edge=0)` does
not produce 6 edges. -/
theorem C6_counterexample : ¬((Cyaron.Graph.hack_spfa 6 []).edge_count = 6) := by
  decide

/-- C6 amended: `hack_spfa(point_count=6, extra_edge=0)` produces
exactly 7 edges and no others: the two near-paths over the halves
(`1-2, 2-3` and `4-5, 5-6`, two edges each) plus the 3-edge
cross-matching (`1-4, 2-5, 3-6`), with no extra random edges. -/
theorem C6_hack_spfa_6 :
    (Cyaron.Graph.hack_spfa 6 []).edge_count = 7 ∧
    ((Cyaron.Graph.hack_spfa 6 []).iterate_edges.map (fun e => (e.start, e.end_))) =
      [((1 : Int), (2 : Int)), (1, 4), (2, 3), (2, 5), (3, 6), (4, 5), (5, 6)] := by
  refine ⟨rfl, ?_⟩
  rfl

/-- C8: `graph(point_count=3, edge_count=4)` with repeated edges and
self-loops disallowed and `directed=False` fails the capacity check
(max 3 simple undirected edges on 3 vertices) before any random draw is
consumed or any edge generated: the result is the validation error for
every possible draw sequence, and no graph is returned. -/
theorem C8_graph_infeasible (draws : List (Int × Int)) :
    Cyaron.Graph.graph 3 4 false false false draws =
      Except.error ("the number of edges of this kind of graph which has " ++
        "3 vertexes must be less than or equal to 3.") := rfl

/-- C7: `from_undirected_degree_sequence([3,3,3,3])` with self-loops and
repeated edges disallowed realizes the complete graph on 4 vertices:
6 canonical edges, every unordered pair of distinct vertices connected
exactly once, and every vertex of degree 3. -/
theorem C7_complete_graph_on_4 :
    (Cyaron.SwitchGraph.from_undirected_degree_sequence [3, 3, 3, 3] false false 100).map
      (fun g => (g.get_edges, g.edge_count, g.udeg 1, g.udeg 2, g.udeg 3, g.udeg 4)) =
    Except.ok ([((1 : Int), (2 : Int)), (1, 3), (1, 4), (2, 3), (2, 4), (3, 4)],
      6, 3, 3, 3, 3) := rfl

/-- C5: every `EdgeMultiset` mutation preserves well-formedness: `insert`
unconditionally, `remove` under its precondition that the removed pair
has positive multiplicity, and `switch` whenever the two weighted draws
are live dict keys (which `random.choices` over `self.__edges`
guarantees), for every flag setting and both modes. -/
theorem C5_mutations_preserve_wf (g : Cyaron.SwitchGraph) (u v : Int)
    (first second : Cyaron.VPair) (self_loop repeated_edges : Bool) :
    (Cyaron.SwitchGraph.WF g → Cyaron.SwitchGraph.WF (g.insert u v)) ∧
    (Cyaron.SwitchGraph.WF g → 0 < g.edges.cnt (u, v) →
      Cyaron.SwitchGraph.WF (g.remove u v)) ∧
    (Cyaron.SwitchGraph.WF g → g.edges.hasKey first = true →
      g.edges.hasKey second = true →
      Cyaron.SwitchGraph.WF ((g.switch first second self_loop repeated_edges).2)) :=
  ⟨Cyaron.SwitchGraph.WF_insert g u v,
   Cyaron.SwitchGraph.WF_remove g u v,
   Cyaron.SwitchGraph.WF_switch g first second self_loop repeated_edges⟩

/-- C5 witness: on the undirected two-edge graph `{1-2, 3-4}` the insert,
remove and (rejected and accepted) switch instances of C5 hold at
concrete inputs. -/
theorem C5_witness :
    Cyaron.SwitchGraph.WF
      ((Cyaron.SwitchGraph.ofEdges [((1:Int),(2:Int)), (3,4)] false).insert 5 6) ∧
    Cyaron.SwitchGraph.WF
      ((Cyaron.SwitchGraph.ofEdges [((1:Int),(2:Int)), (3,4)] false).remove 1 2) ∧
    Cyaron.SwitchGraph.WF
      (((Cyaron.SwitchGraph.ofEdges [((1:Int),(2:Int)), (3,4)] false).switch
        (1, 2) (3, 4) false false).2) :=
  ⟨(C5_mutations_preserve_wf _ 5 6 (1, 2) (3, 4) false false).1 (by decide),
   (C5_mutations_preserve_wf _ 1 2 (1, 2) (3, 4) false false).2.1 (by decide) (by decide),
   (C5_mutations_preserve_wf _ 1 2 (1, 2) (3, 4) false false).2.2 (by decide)
     (by decide) (by decide)⟩

/-- C4: `edge_count` filters on `k[0] <= k[1]` even for a directed
multiset, while `get_edges` keeps every stored arc of a directed
multiset; hence a directed graph holding the single arc `(2,1)` reports
`edge_count() = 0` although `edges()` has length 1, contradicting the
documented "count of edges in the graph". -/
theorem C4_edge_count_directed_mismatch :
    (Cyaron.SwitchGraph.ofEdges [((2:Int),(1:Int))] true).edge_count = 0 ∧
    ((Cyaron.SwitchGraph.ofEdges [((2:Int),(1:Int))] true).get_edges).length = 1 := by
  decide

/-- C9: for every `point_count` and `tree_count` with `1 ≤ tree_count ≤
point_count` — the father draws in range (`randrange(1, i)` for vertex
`i`), the sampled edge positions distinct, in range, and `point_count -
tree_count` many, as `random.sample` guarantees — `forest` returns a
graph with exactly `point_count - tree_count` canonical edges and
exactly `tree_count` connected components; for `tree_count` outside
`[1, point_count]` it raises the validation `ValueError` before
building anything. -/
theorem C9_forest_spec (point_count tree_count : Int) (fathers : Int → Int)
    (sampleIdx : List Nat) :
    (tree_count ≤ 0 ∨ point_count < tree_count →
      Cyaron.Graph.forest point_count tree_count fathers sampleIdx =
        Except.error "tree_count must be between 1 and point_count") ∧
    (1 ≤ tree_count → tree_count ≤ point_count →
      (∀ i : Int, 2 ≤ i → i ≤ point_count → 1 ≤ fathers i ∧ fathers i < i) →
      sampleIdx.Nodup →
      (∀ j ∈ sampleIdx, (j : Int) < point_count - 1) →
      (sampleIdx.length : Int) = point_count - tree_count →
      ∃ g, Cyaron.Graph.forest point_count tree_count fathers sampleIdx =
          Except.ok g ∧
        (g.edge_count : Int) = point_count - tree_count ∧
        (g.component_count : Int) = tree_count) := by
  constructor
  · intro hbad
    unfold Graph.forest
    rw [if_pos hbad]
  · intro hk1 hk2 hf hnd hjlt hlen
    have hpc : 1 ≤ point_count := le_trans hk1 hk2
    unfold Graph.forest
    rw [if_neg (by omega), Graph.tree_zero point_count fathers hpc]
    dsimp only
    have hmapfold : (intRange 2 (point_count + 1)).foldl
        (fun g i => g.add_edge (fathers i) i 1) (Graph.init point_count false) =
      ((intRange 2 (point_count + 1)).map (fun i => Edge.mk (fathers i) i 1)).foldl
        (fun h e => h.add_edge e.start e.end_ e.weight)
        (Graph.init point_count false) := by
      rw [List.foldl_map]
    have hdirT : ((intRange 2 (point_count + 1)).foldl
        (fun g i => g.add_edge (fathers i) i 1)
        (Graph.init point_count false)).directed = false := by
      rw [hmapfold, Graph.foldl_add_edge_directed]
      rfl
    have hmemT : ∀ e ∈ (intRange 2 (point_count + 1)).map
        (fun i => Edge.mk (fathers i) i 1),
        1 ≤ e.start ∧ e.start < e.end_ ∧ e.end_ ≤ point_count := by
      intro e he
      rw [List.mem_map] at he
      obtain ⟨i, hi, rfl⟩ := he
      obtain ⟨hi2, hilt⟩ := Graph.mem_intRange hi
      have hfi := hf i hi2 (by omega)
      refine ⟨?_, ?_, ?_⟩ <;> dsimp only <;> omega
    have hcondT : ∀ e ∈ (intRange 2 (point_count + 1)).map
        (fun i => Edge.mk (fathers i) i 1),
        0 ≤ e.start ∧ e.start < e.end_ ∧
          e.end_.toNat < (Graph.init point_count false).edges.length := by
      intro e he
      have h := hmemT e he
      rw [Graph.init_edges_length]
      exact ⟨by omega, h.2.1, by omega⟩
    have hTperM : List.Perm ((intRange 2 (point_count + 1)).foldl
        (fun g i => g.add_edge (fathers i) i 1)
        (Graph.init point_count false)).iterate_edges
        ((intRange 2 (point_count + 1)).map (fun i => Edge.mk (fathers i) i 1)) := by
      rw [hmapfold]
      have h := Graph.iterate_edges_foldl
        ((intRange 2 (point_count + 1)).map (fun i => Edge.mk (fathers i) i 1))
        (Graph.init point_count false) rfl hcondT
      rw [Graph.init_iterate_edges, List.append_nil] at h
      exact h
    have hchildT : (((intRange 2 (point_count + 1)).map
        (fun i => Edge.mk (fathers i) i 1)).map Edge.end_).Nodup := by
      rw [List.map_map,
        show (Edge.end_ ∘ fun i => Edge.mk (fathers i) i 1) = id from rfl,
        List.map_id]
      exact Graph.intRange_nodup 2 (point_count + 1)
    have hjltT : ∀ j ∈ sampleIdx, j < ((intRange 2 (point_count + 1)).map
        (fun i => Edge.mk (fathers i) i 1)).length := by
      intro j hj
      have := hjlt j hj
      rw [List.length_map, Graph.intRange_length]
      omega
    have hcore := Graph.forest_core point_count
      ((intRange 2 (point_count + 1)).foldl
        (fun g i => g.add_edge (fathers i) i 1) (Graph.init point_count false))
      sampleIdx
      ((intRange 2 (point_count + 1)).map (fun i => Edge.mk (fathers i) i 1))
      hdirT hTperM hmemT hchildT hnd hjltT hpc
    refine ⟨_, rfl, ?_, ?_⟩
    · rw [hcore.1]
      exact hlen
    · rw [hcore.2]
      omega

/-- C9 witness: `forest(5, 2)` with fathers `i - 1` and sampled edge
positions `0, 1, 2` yields 3 edges and 2 components; `forest(5, 0)`
raises the validation error. -/
theorem C9_witness :
    (∃ g, Cyaron.Graph.forest 5 2 (fun i => i - 1) [0, 1, 2] = Except.ok g ∧
        (g.edge_count : Int) = 3 ∧ (g.component_count : Int) = 2) ∧
    Cyaron.Graph.forest 5 0 (fun i => i - 1) [] =
      Except.error "tree_count must be between 1 and point_count" := by
  constructor
  · exact (C9_forest_spec 5 2 (fun i => i - 1) [0, 1, 2]).2 (by norm_num) (by norm_num)
      (fun i h1 h2 => ⟨by omega, by omega⟩) (by decide) (by decide) (by decide)
  · exact (C9_forest_spec 5 0 (fun i => i - 1) []).1 (by norm_num)

end Cyaron
